import Mathlib

/-!
Verification of the moreniius repository: a shallow embedding of the
transformation-chain synthesizer (src/moreniius/mccode/orientation.py,
instr.py, mccode.py), the expression resolver (NXInstr.expr2nx) and the
NeXus-structure path navigator (src/moreniius/path_navigator.py), together
with theorems settling the specification claims about them.

Modelling conventions: Python strings are Lean String values; the string
primitives the source uses (str.split, str.strip, str.startswith, slicing,
f-string interpolation of integers) are embedded as explicit recursive
functions over the character list of the string, mirroring the Python
semantics.  Python dict records are Lean structures whose Option fields
model dict.get returning None.  Python object identity (the is operator)
is modelled by a numeric identity field carried by every record; two
records of one tree are distinct objects exactly when their identities
differ.  Exceptions are Except / Option results.
-/

/-! ## String primitives used by the source -/

/-- Model of the Python expression s.split('/') for one string: split at every
slash, keeping empty segments. -/
def splitSlashChars : List Char → List (List Char)
  | [] => [[]]
  | c :: rest =>
    if c = '/' then [] :: splitSlashChars rest
    else
      match splitSlashChars rest with
      | [] => [[c]]
      | seg :: segs => (c :: seg) :: segs

/-- Split a string at slashes, as Python str.split('/'). -/
def strSplitSlash (s : String) : List String :=
  (splitSlashChars s.data).map String.mk

/-- Model of the Python expression s.strip('/'): drop leading and trailing
slashes. -/
def stripSlashChars (l : List Char) : List Char :=
  ((l.dropWhile (fun c => c = '/')).reverse.dropWhile (fun c => c = '/')).reverse

/-- Strip slashes from both ends of a string, as Python str.strip('/'). -/
def strStripSlash (s : String) : String :=
  String.mk (stripSlashChars s.data)

/-- Model of the Python expression '/'.join(parts). -/
def joinSlash : List String → String
  | [] => ""
  | [s] => s
  | s :: rest => s ++ "/" ++ joinSlash rest

/-- Model of the Python test s.startswith(single character c). -/
def headIs (c : Char) (s : String) : Bool :=
  s.data.head? == some c

/-- Model of the Python slice s[1:] (all characters of the source are ASCII,
so dropping one character matches dropping one byte). -/
def strTail (s : String) : String :=
  String.mk s.data.tail

/-- Python truthiness of an optional string: None and the empty string are
falsy. -/
def truthyS : Option String → Bool
  | none => false
  | some s => !(s == "")

/-! ## Navigator data model (path_navigator.py)

A NeXus Structure JSON node is a dictionary; the navigator reads the keys
name, module, config.name, attributes and children.  The numeric nid/aid
field models Python object identity for the get_path reverse lookup. -/

structure NSAttr where
  aid : Nat
  name : Option String
deriving DecidableEq, Repr

inductive NSNode : Type where
  | node (nid : Nat) (name : Option String) (module : Option String)
      (configName : Option String) (attrs : List NSAttr)
      (children : List NSNode) : NSNode

def NSNode.nid : NSNode → Nat
  | .node i _ _ _ _ _ => i

def NSNode.name : NSNode → Option String
  | .node _ n _ _ _ _ => n

def NSNode.module : NSNode → Option String
  | .node _ _ m _ _ _ => m

def NSNode.configName : NSNode → Option String
  | .node _ _ _ c _ _ => c

def NSNode.attrs : NSNode → List NSAttr
  | .node _ _ _ _ a _ => a

def NSNode.children : NSNode → List NSNode
  | .node _ _ _ _ _ cs => cs

/-- Result of a navigator lookup: either a structure node (wrapped in a new
navigator by __getitem__ when it has children) or an attribute record. -/
inductive NavResult : Type where
  | nodeRes : NSNode → NavResult
  | attrRes : NSAttr → NavResult

/-- The identity of the record underlying a lookup result. -/
def resultId : NavResult → Nat
  | .nodeRes n => n.nid
  | .attrRes a => a.aid

/-- The KeyError messages raised by _navigate, distinguished by their text:
malformed is "Attributes must be at the end of the path: ...", attrNotFound
is "Attribute '@...' not found", notFound is "Path component '...' not
found ...". -/
inductive NavErr : Type where
  | malformed (seg : String)
  | attrNotFound (attrName : String)
  | notFound (seg : String)
deriving DecidableEq, Repr

/-- Model of the per-child matching in _navigate: match by name, else by
config.name for dataset and link modules. -/
def matchesChild (child : NSNode) (seg : String) : Bool :=
  child.name == some seg
  || (child.module == some "dataset" && child.configName == some seg)
  || (child.module == some "link" && child.configName == some seg)

/-- Model of NexusStructureNavigator._navigate. -/
def navigate (cur : NSNode) : List String → Except NavErr NavResult
  | [] => .ok (.nodeRes cur)
  | seg :: remaining =>
    if headIs '@' seg then
      let attrName := strTail seg
      if !remaining.isEmpty then .error (.malformed seg)
      else
        match cur.attrs.find? (fun a => a.name == some attrName) with
        | some a => .ok (.attrRes a)
        | none => .error (.attrNotFound attrName)
    else
      match cur.children.find? (fun c => matchesChild c seg) with
      | some c => navigate c remaining
      | none => .error (.notFound seg)

/-- Model of NexusStructureNavigator.__getitem__ (path normalisation then
_navigate); the wrapping of group results in a fresh navigator only changes
the host type of the result, not the underlying record, so the result keeps
the record itself. -/
def navLookup (root : NSNode) (path : String) : Except NavErr NavResult :=
  let stripped := strStripSlash path
  if stripped = "" then .ok (.nodeRes root)
  else navigate root (strSplitSlash stripped)

/-- Model of NexusStructureNavigator.get: any KeyError becomes the default
(represented by none). -/
def navGet (root : NSNode) (path : String) : Option NavResult :=
  match navLookup root path with
  | .ok r => some r
  | .error _ => none

/-- Model of NexusStructureNavigator.exists. -/
def navExists (root : NSNode) (path : String) : Bool :=
  match navLookup root path with
  | .ok _ => true
  | .error _ => false

mutual

/-- Model of NexusStructureNavigator._find_recursive: the current node is
collected when its name matches, again when its dataset or link config name
matches, attribute records are collected when requested, and the search
always recurses into every child. -/
def findRecursive : NSNode → String → Bool → List NavResult
  | .node i n m cn attrs children, target, ia =>
    (if n == some target then [NavResult.nodeRes (.node i n m cn attrs children)] else [])
    ++ (if (m == some "dataset" || m == some "link") && cn == some target then
          [NavResult.nodeRes (.node i n m cn attrs children)] else [])
    ++ (if ia then (attrs.filter (fun a => a.name == some target)).map NavResult.attrRes else [])
    ++ findRecursiveList children target ia

def findRecursiveList : List NSNode → String → Bool → List NavResult
  | [], _, _ => []
  | c :: rest, target, ia => findRecursive c target ia ++ findRecursiveList rest target ia

end

/-- The name under which _build_path emits a child: its name when truthy,
else its config name for dataset and link modules when truthy, else the
child is skipped entirely. -/
def emittedName (c : NSNode) : Option String :=
  if truthyS c.name then c.name
  else if (c.module == some "dataset" || c.module == some "link") && truthyS c.configName then
    c.configName
  else none

/-- The attribute segment _build_path emits when the target is an attribute
of the current node: the first attribute with the target identity and a
truthy name yields an at-prefixed segment; identity matches with a falsy
name are passed over, as in the source loop. -/
def buildAttrSeg : List NSAttr → Nat → Option String
  | [], _ => none
  | a :: rest, tid =>
    if a.aid = tid ∧ truthyS a.name then some ("@" ++ a.name.getD "")
    else buildAttrSeg rest tid

mutual

/-- Model of NexusStructureNavigator._build_path, returning the path parts
from the current node to the record with the target identity: the current
node itself, then its attributes, then its children in order, skipping
children without an emitted name. -/
def buildPath : NSNode → Nat → Option (List String)
  | .node i _ _ _ attrs children, tid =>
    if i = tid then some []
    else
      match buildAttrSeg attrs tid with
      | some seg => some [seg]
      | none => buildPathChildren children tid

def buildPathChildren : List NSNode → Nat → Option (List String)
  | [], _ => none
  | c :: rest, tid =>
    match emittedName c with
    | some nm =>
      (match buildPath c tid with
       | some p => some (nm :: p)
       | none => buildPathChildren rest tid)
    | none => buildPathChildren rest tid

end

/-- Model of NexusStructureNavigator.get_path. -/
def getPath (root : NSNode) (tid : Nat) : Option String :=
  match buildPath root tid with
  | some [] => some "/"
  | some parts => some ("/" ++ joinSlash parts)
  | none => none

/-! ## Navigator well-formedness

The reverse lookup matches records by identity while the forward lookup
matches children by name, so the round trip needs the tree to be
unambiguous: identities distinct, emitted names usable as path segments,
and no earlier sibling capturing a later sibling's segment. -/

/-- A string usable inside a slash-joined path: nonempty with no slash. -/
def plainSeg (s : String) : Bool :=
  !(s == "") && s.data.all (fun c => !(c = '/'))

/-- A child segment additionally must not look like an attribute segment. -/
def goodChildSeg (s : String) : Bool :=
  plainSeg s && !(headIs '@' s)

/-- Attribute names only need to avoid the slash; the at sign is prepended
by _build_path and stripped again by _navigate. -/
def goodAttrName (s : String) : Bool :=
  s.data.all (fun c => !(c = '/'))

/-- No later attribute with a truthy name is shadowed by an earlier
attribute of the same name. -/
def noDupAttrNames : List NSAttr → Bool
  | [] => true
  | a :: rest =>
    rest.all (fun b => !(truthyS b.name) || !(a.name == b.name)) && noDupAttrNames rest

/-- No earlier child matches the emitted name of a later child. -/
def noEarlierMatch : List NSNode → Bool
  | [] => true
  | c :: rest =>
    rest.all (fun later =>
      match emittedName later with
      | some nm => !(matchesChild c nm)
      | none => true) && noEarlierMatch rest

mutual

/-- Well-formedness of one tree: attribute names and emitted child names
are path-safe, names do not shadow each other, recursively. -/
def wfNode : NSNode → Bool
  | .node _ _ _ _ attrs children =>
    attrs.all (fun a =>
      match a.name with
      | some s => goodAttrName s
      | none => true)
    && children.all (fun c =>
      match emittedName c with
      | some nm => goodChildSeg nm
      | none => true)
    && noDupAttrNames attrs
    && noEarlierMatch children
    && wfChildren children

def wfChildren : List NSNode → Bool
  | [] => true
  | c :: rest => wfNode c && wfChildren rest

end

mutual

/-- Identities of every record of a tree, in document order. -/
def nodeIds : NSNode → List Nat
  | .node i _ _ _ attrs children => i :: (attrs.map NSAttr.aid ++ idsList children)

def idsList : List NSNode → List Nat
  | [] => []
  | c :: rest => nodeIds c ++ idsList rest

end

mutual

/-- Identities reachable by _build_path: the node itself, its attributes
with truthy names, and recursively the children that have an emitted name;
children without one are skipped together with their whole subtree. -/
def pathableIds : NSNode → List Nat
  | .node i _ _ _ attrs children =>
    i :: ((attrs.filter (fun a => truthyS a.name)).map NSAttr.aid ++ pathableIdsList children)

def pathableIdsList : List NSNode → List Nat
  | [] => []
  | c :: rest =>
    (if (emittedName c).isSome then pathableIds c else []) ++ pathableIdsList rest

end

mutual

/-- Every node of a tree, in document order. -/
def subtreeNodes : NSNode → List NSNode
  | .node i n m cn attrs children => .node i n m cn attrs children :: subtreeNodesList children

def subtreeNodesList : List NSNode → List NSNode
  | [] => []
  | c :: rest => subtreeNodes c ++ subtreeNodesList rest

end

/-- A node u sits (at any depth) under a node as a child that _build_path
skips: u has no name key and is not a dataset or link module node. -/
inductive SkippedUnder (u : NSNode) : NSNode → Prop
  | here {p : NSNode} : u ∈ p.children → u.name = none →
      u.module ≠ some "dataset" → u.module ≠ some "link" → SkippedUnder u p
  | deeper {p c : NSNode} : c ∈ p.children → SkippedUnder u c → SkippedUnder u p

/-! ## Navigator lemmas: identities, pathability, skipping -/

theorem mem_idsList_of_mem {c : NSNode} {l : List NSNode} (h : c ∈ l) {x : Nat}
    (hx : x ∈ nodeIds c) : x ∈ idsList l := by
  induction l with
  | nil => cases h
  | cons hd tl ih =>
    rcases List.mem_cons.mp h with rfl | hmem
    · simp only [idsList, List.mem_append]; exact Or.inl hx
    · simp only [idsList, List.mem_append]; exact Or.inr (ih hmem)

mutual

theorem pathable_subset_ids : ∀ (n : NSNode) (x : Nat), x ∈ pathableIds n → x ∈ nodeIds n
  | .node i nm m cn attrs children, x, hx => by
    simp only [pathableIds, nodeIds, List.mem_cons, List.mem_append] at hx ⊢
    rcases hx with rfl | hx | hx
    · exact Or.inl rfl
    · rcases List.mem_map.mp hx with ⟨a, ha, rfl⟩
      exact Or.inr (Or.inl (List.mem_map_of_mem _ (List.mem_of_mem_filter ha)))
    · exact Or.inr (Or.inr (pathableList_subset_ids children x hx))

theorem pathableList_subset_ids : ∀ (l : List NSNode) (x : Nat),
    x ∈ pathableIdsList l → x ∈ idsList l
  | [], _, hx => by simp [pathableIdsList] at hx
  | c :: rest, x, hx => by
    simp only [pathableIdsList, idsList, List.mem_append] at hx ⊢
    rcases hx with hx | hx
    · split at hx
      · exact Or.inl (pathable_subset_ids c x hx)
      · cases hx
    · exact Or.inr (pathableList_subset_ids rest x hx)

end

theorem pathableList_mem_ex {l : List NSNode} {x : Nat} (hx : x ∈ pathableIdsList l) :
    ∃ c ∈ l, (emittedName c).isSome ∧ x ∈ pathableIds c := by
  induction l with
  | nil => simp [pathableIdsList] at hx
  | cons hd tl ih =>
    simp only [pathableIdsList, List.mem_append] at hx
    rcases hx with hx | hx
    · refine ⟨hd, List.mem_cons_self _ _, ?_⟩
      split at hx
      · exact ⟨by assumption, hx⟩
      · cases hx
    · rcases ih hx with ⟨c, hc, hs, hp⟩
      exact ⟨c, List.mem_cons_of_mem _ hc, hs, hp⟩

theorem buildAttrSeg_mem {attrs : List NSAttr} {tid : Nat} {seg : String}
    (h : buildAttrSeg attrs tid = some seg) :
    ∃ a ∈ attrs, a.aid = tid ∧ truthyS a.name = true := by
  induction attrs with
  | nil => simp [buildAttrSeg] at h
  | cons hd tl ih =>
    simp only [buildAttrSeg] at h
    split at h
    · rename_i hc
      exact ⟨hd, List.mem_cons_self _ _, hc.1, hc.2⟩
    · rcases ih h with ⟨a, ha, h1, h2⟩
      exact ⟨a, List.mem_cons_of_mem _ ha, h1, h2⟩

mutual

theorem buildPath_mem_pathable : ∀ (n : NSNode) (tid : Nat) (p : List String),
    buildPath n tid = some p → tid ∈ pathableIds n
  | .node i nm m cn attrs children, tid, p, h => by
    simp only [buildPath] at h
    split at h
    · rename_i htid
      simp [pathableIds, htid]
    · rename_i htid
      simp only [pathableIds, List.mem_cons, List.mem_append]
      split at h
      · rename_i seg hseg
        rcases buildAttrSeg_mem hseg with ⟨a, ha, h1, h2⟩
        refine Or.inr (Or.inl (List.mem_map.mpr ⟨a, ?_, h1⟩))
        exact List.mem_filter.mpr ⟨ha, h2⟩
      · exact Or.inr (Or.inr (buildPathChildren_mem_pathable children tid p h))

theorem buildPathChildren_mem_pathable : ∀ (l : List NSNode) (tid : Nat) (p : List String),
    buildPathChildren l tid = some p → tid ∈ pathableIdsList l
  | [], _, _, h => by simp [buildPathChildren] at h
  | c :: rest, tid, p, h => by
    simp only [buildPathChildren] at h
    simp only [pathableIdsList, List.mem_append]
    split at h
    · rename_i nm hnm
      split at h
      · rename_i q hq
        refine Or.inl ?_
        rw [hnm]
        simp only [Option.isSome_some, if_pos]
        exact buildPath_mem_pathable c tid q hq
      · exact Or.inr (buildPathChildren_mem_pathable rest tid p h)
    · exact Or.inr (buildPathChildren_mem_pathable rest tid p h)

end

theorem nodeIds_sublist {c : NSNode} {l : List NSNode} (h : c ∈ l) :
    (nodeIds c).Sublist (idsList l) := by
  induction l with
  | nil => cases h
  | cons hd tl ih =>
    rcases List.mem_cons.mp h with rfl | hmem
    · simp only [idsList]
      exact List.sublist_append_left _ _
    · simp only [idsList]
      exact (ih hmem).trans (List.sublist_append_right _ _)

theorem ids_disjoint {l : List NSNode} (hnd : (idsList l).Nodup) {u c : NSNode}
    (hu : u ∈ l) (hc : c ∈ l) (hne : u ≠ c) {x : Nat} (hxu : x ∈ nodeIds u) :
    x ∉ nodeIds c := by
  induction l with
  | nil => cases hu
  | cons hd tl ih =>
    simp only [idsList] at hnd
    have hdisj := List.disjoint_of_nodup_append hnd
    have hnd2 := (List.nodup_append.mp hnd).2.1
    rcases List.mem_cons.mp hu with rfl | humem
    · rcases List.mem_cons.mp hc with rfl | hcmem
      · exact absurd rfl hne
      · intro hxc
        exact hdisj hxu (mem_idsList_of_mem hcmem hxc)
    · rcases List.mem_cons.mp hc with rfl | hcmem
      · intro hxc
        exact hdisj hxc (mem_idsList_of_mem humem hxu)
      · exact ih hnd2 humem hcmem

mutual

theorem nid_mem_of_subtree : ∀ (u n : NSNode), n ∈ subtreeNodes u → n.nid ∈ nodeIds u
  | .node i nm m cn attrs children, n, h => by
    simp only [subtreeNodes, List.mem_cons] at h
    rcases h with rfl | h
    · simp [nodeIds, NSNode.nid]
    · simp only [nodeIds, List.mem_cons, List.mem_append]
      exact Or.inr (Or.inr (nid_mem_of_subtreeList children n h))

theorem nid_mem_of_subtreeList : ∀ (l : List NSNode) (n : NSNode),
    n ∈ subtreeNodesList l → n.nid ∈ idsList l
  | [], _, h => by simp [subtreeNodesList] at h
  | c :: rest, n, h => by
    simp only [subtreeNodesList, List.mem_append] at h
    simp only [idsList, List.mem_append]
    rcases h with h | h
    · exact Or.inl (nid_mem_of_subtree c n h)
    · exact Or.inr (nid_mem_of_subtreeList rest n h)

end

theorem emittedName_none_of_unnamed {u : NSNode} (h1 : u.name = none)
    (h2 : u.module ≠ some "dataset") (h3 : u.module ≠ some "link") :
    emittedName u = none := by
  simp only [emittedName, h1, truthyS, Bool.false_and, if_false]
  have hm1 : (u.module == some "dataset") = false := by
    simp only [beq_eq_false_iff_ne, ne_eq]; exact h2
  have hm2 : (u.module == some "link") = false := by
    simp only [beq_eq_false_iff_ne, ne_eq]; exact h3
  simp [hm1, hm2]

theorem skipped_sub_ids {u : NSNode} : ∀ {p : NSNode}, SkippedUnder u p →
    ∀ {x : Nat}, x ∈ nodeIds u → x ∈ nodeIds p := by
  intro p h
  induction h with
  | @here p' hmem h1 h2 h3 =>
    intro x hx
    obtain ⟨i, nm, m, cn, attrs, children⟩ := p'
    simp only [NSNode.children] at hmem
    simp only [nodeIds, List.mem_cons, List.mem_append]
    exact Or.inr (Or.inr (mem_idsList_of_mem hmem hx))
  | @deeper p' c' hmem _ ih =>
    intro x hx
    obtain ⟨i, nm, m, cn, attrs, children⟩ := p'
    simp only [nodeIds, List.mem_cons, List.mem_append]
    exact Or.inr (Or.inr (mem_idsList_of_mem hmem (ih hx)))

theorem skipped_subtree_mem {u : NSNode} : ∀ {p : NSNode}, SkippedUnder u p →
    ∀ {n : NSNode}, n ∈ subtreeNodes u → n ∈ subtreeNodes p := by
  intro p h
  induction h with
  | @here p' hmem h1 h2 h3 =>
    intro n hn
    obtain ⟨i, nm, m, cn, attrs, children⟩ := p'
    simp only [NSNode.children] at hmem
    simp only [subtreeNodes, List.mem_cons]
    refine Or.inr ?_
    clear h1 h2 h3
    induction children with
    | nil => cases hmem
    | cons hd tl ih =>
      simp only [subtreeNodesList, List.mem_append]
      rcases List.mem_cons.mp hmem with rfl | hmem2
      · exact Or.inl hn
      · exact Or.inr (ih hmem2)
  | @deeper p' c' hmem _ ih =>
    intro n hn
    obtain ⟨i, nm, m, cn, attrs, children⟩ := p'
    simp only [subtreeNodes, List.mem_cons]
    refine Or.inr ?_
    have hn2 := ih hn
    induction children with
    | nil => cases hmem
    | cons hd tl ih2 =>
      simp only [subtreeNodesList, List.mem_append]
      rcases List.mem_cons.mp hmem with rfl | hmem2
      · exact Or.inl hn2
      · exact Or.inr (ih2 hmem2)

theorem skipped_not_pathable {u : NSNode} {tid : Nat} :
    ∀ {root : NSNode}, SkippedUnder u root → (nodeIds root).Nodup →
    tid ∈ nodeIds u → tid ∉ pathableIds root := by
  intro root h
  induction h with
  | @here p' hmem h1 h2 h3 =>
    intro hnd htid hpath
    obtain ⟨i, nm, m, cn, attrs, children⟩ := p'
    simp only [NSNode.children] at hmem
    simp only [nodeIds, List.nodup_cons] at hnd
    obtain ⟨hhead, htail⟩ := hnd
    have htidch : tid ∈ idsList children := mem_idsList_of_mem hmem htid
    simp only [pathableIds, List.mem_cons, List.mem_append] at hpath
    rcases hpath with rfl | hpath | hpath
    · exact hhead (List.mem_append.mpr (Or.inr htidch))
    · rcases List.mem_map.mp hpath with ⟨a, ha, rfl⟩
      have : a.aid ∈ attrs.map NSAttr.aid := List.mem_map_of_mem _ (List.mem_of_mem_filter ha)
      exact List.disjoint_of_nodup_append htail this htidch
    · rcases pathableList_mem_ex hpath with ⟨c, hc, hsome, hpc⟩
      have hcu : c ≠ u := by
        intro heq
        rw [heq, emittedName_none_of_unnamed h1 h2 h3] at hsome
        simp at hsome
      have hndch : (idsList children).Nodup := (List.nodup_append.mp htail).2.1
      have : tid ∈ nodeIds c := pathable_subset_ids c tid hpc
      exact ids_disjoint hndch hmem hc (fun he => hcu he.symm) htid this
  | @deeper p' c0 hmem hsk ih =>
    intro hnd htid hpath
    obtain ⟨i, nm, m, cn, attrs, children⟩ := p'
    simp only [NSNode.children] at hmem
    simp only [nodeIds, List.nodup_cons] at hnd
    obtain ⟨hhead, htail⟩ := hnd
    have htidc0 : tid ∈ nodeIds c0 := skipped_sub_ids hsk htid
    have htidch : tid ∈ idsList children := mem_idsList_of_mem hmem htidc0
    simp only [pathableIds, List.mem_cons, List.mem_append] at hpath
    rcases hpath with rfl | hpath | hpath
    · exact hhead (List.mem_append.mpr (Or.inr htidch))
    · rcases List.mem_map.mp hpath with ⟨a, ha, rfl⟩
      have : a.aid ∈ attrs.map NSAttr.aid := List.mem_map_of_mem _ (List.mem_of_mem_filter ha)
      exact List.disjoint_of_nodup_append htail this htidch
    · rcases pathableList_mem_ex hpath with ⟨c, hc, hsome, hpc⟩
      have hndch : (idsList children).Nodup := (List.nodup_append.mp htail).2.1
      by_cases hceq : c = c0
      · subst hceq
        have hndc : (nodeIds c).Nodup := (nodeIds_sublist hmem).nodup hndch
        exact ih hndc htid hpc
      · have : tid ∈ nodeIds c := pathable_subset_ids c tid hpc
        exact ids_disjoint hndch hmem hc (fun he => hceq he.symm) htidc0 this

mutual

theorem findRecursive_of_subtree :
    ∀ (cur n : NSNode) (nm : String) (ia : Bool), n ∈ subtreeNodes cur →
      n.name = some nm → NavResult.nodeRes n ∈ findRecursive cur nm ia
  | .node i nme m cn attrs children, n, nm, ia, hmem, hname => by
    simp only [subtreeNodes, List.mem_cons] at hmem
    rcases hmem with rfl | hmem
    · simp only [NSNode.name] at hname
      subst hname
      simp [findRecursive]
    · simp only [findRecursive, List.mem_append]
      exact Or.inr (findRecursiveList_of_subtree children n nm ia hmem hname)

theorem findRecursiveList_of_subtree :
    ∀ (l : List NSNode) (n : NSNode) (nm : String) (ia : Bool), n ∈ subtreeNodesList l →
      n.name = some nm → NavResult.nodeRes n ∈ findRecursiveList l nm ia
  | [], n, nm, ia, hmem, _ => by simp [subtreeNodesList] at hmem
  | c :: rest, n, nm, ia, hmem, hname => by
    simp only [subtreeNodesList, List.mem_append] at hmem
    simp only [findRecursiveList, List.mem_append]
    rcases hmem with hmem | hmem
    · exact Or.inl (findRecursive_of_subtree c n nm ia hmem hname)
    · exact Or.inr (findRecursiveList_of_subtree rest n nm ia hmem hname)

end

/-! ## Claim C10: unnamed children hide their subtree from get_path only -/

/-- C10: for every tree containing a child node that has no name key and is
not a dataset or link module node, get_path returns none for that child and
for every node of its subtree, because _build_path skips the whole subtree;
find_all still recurses into the subtree and returns named descendants.
Identity distinctness (hnd) models Python object identity of the records of
one tree. -/
theorem c10_unnamed_child_subtree (root u n : NSNode) (h : SkippedUnder u root)
    (hnd : (nodeIds root).Nodup) (hn : n ∈ subtreeNodes u) :
    getPath root n.nid = none ∧
      (∀ nm ia, n.name = some nm → NavResult.nodeRes n ∈ findRecursive root nm ia) := by
  constructor
  · have hnp : n.nid ∉ pathableIds root :=
      skipped_not_pathable h hnd (nid_mem_of_subtree u n hn)
    cases hbp : buildPath root n.nid with
    | none => simp [getPath, hbp]
    | some parts => exact absurd (buildPath_mem_pathable root n.nid parts hbp) hnp
  · intro nm ia hname
    exact findRecursive_of_subtree root n nm ia (skipped_subtree_mem h hn) hname

def c10g : NSNode := .node 2 (some "g") none none [] []

def c10u : NSNode := .node 1 none none none [] [c10g]

def c10root : NSNode := .node 0 (some "root") none none [] [c10u]

/-- Witness for C10: a concrete tree whose root has an unnamed child c10u
with a named grandchild c10g; get_path fails on the grandchild while
find_all returns it. -/
theorem c10_unnamed_child_subtree_witness :
    getPath c10root 2 = none ∧ NavResult.nodeRes c10g ∈ findRecursive c10root "g" false := by
  have hmem : c10u ∈ c10root.children := List.Mem.head _
  have hsk : SkippedUnder c10u c10root :=
    SkippedUnder.here hmem rfl (by decide) (by decide)
  have hn : c10g ∈ subtreeNodes c10u := List.Mem.tail _ (List.Mem.head _)
  have h := c10_unnamed_child_subtree c10root c10u c10g hsk (by decide) hn
  exact ⟨h.1, h.2 "g" false rfl⟩

/-! ## Claim C8: malformed paths -/

def c8attr : NSAttr := ⟨3, some "NX_class"⟩

def c8entry : NSNode := .node 1 (some "entry") none none [c8attr] []

def c8root : NSNode := .node 0 none none none [] [c8entry]

/-- C8 counterexample: lookup of /entry/@NX_class/x does fail with the
malformed-path KeyError (distinguishable from not-found by its message),
but get converts it to the default and exists converts it to false, so the
failure is not always surfaced to the caller as the claim states. -/
theorem c8_counterexample :
    navLookup c8root "/entry/@NX_class/x" = .error (.malformed "@NX_class")
    ∧ navGet c8root "/entry/@NX_class/x" = none
    ∧ navExists c8root "/entry/@NX_class/x" = false := by
  refine And.intro ?_ (And.intro ?_ ?_)
  · rfl
  · rfl
  · rfl

/-- C8 amended: a malformed-path failure of lookup is distinguishable from
the not-found failure (distinct error constructors, i.e. distinct KeyError
messages), but get and exists treat it like any KeyError: get returns the
default (modelled by none) and exists returns false. -/
theorem c8_malformed_is_caught (root : NSNode) (p : String) (seg : String)
    (h : navLookup root p = .error (.malformed seg)) :
    NavErr.malformed seg ≠ NavErr.notFound seg
    ∧ navGet root p = none ∧ navExists root p = false := by
  refine ⟨(fun h2 => by cases h2), ?_, ?_⟩ <;> simp [navGet, navExists, h]

/-- Witness for the amended C8 on the concrete malformed lookup. -/
theorem c8_malformed_is_caught_witness :
    NavErr.malformed "@NX_class" ≠ NavErr.notFound "@NX_class"
    ∧ navGet c8root "/entry/@NX_class/x" = none
    ∧ navExists c8root "/entry/@NX_class/x" = false :=
  c8_malformed_is_caught c8root "/entry/@NX_class/x" "@NX_class" rfl

/-! ## Split, join and strip lemmas for the round trip -/

theorem string_eta (s : String) : String.mk s.data = s := rfl

theorem splitSlashChars_noSlash {a : List Char} (h : ∀ c ∈ a, ¬(c = '/')) :
    splitSlashChars a = [a] := by
  induction a with
  | nil => rfl
  | cons c rest ih =>
    have hc : ¬(c = '/') := h c (List.mem_cons_self _ _)
    have hrest : splitSlashChars rest = [rest] :=
      ih (fun x hx => h x (List.mem_cons_of_mem _ hx))
    simp [splitSlashChars, hc, hrest]

theorem splitSlashChars_append {a : List Char} (b : List Char) (h : ∀ c ∈ a, ¬(c = '/')) :
    splitSlashChars (a ++ '/' :: b) = a :: splitSlashChars b := by
  induction a with
  | nil => simp [splitSlashChars]
  | cons c rest ih =>
    have hc : ¬(c = '/') := h c (List.mem_cons_self _ _)
    have hrest := ih (fun x hx => h x (List.mem_cons_of_mem _ hx))
    simp [splitSlashChars, hc, hrest]

theorem plainSeg_no_slash {s : String} (h : plainSeg s = true) : ∀ c ∈ s.data, ¬(c = '/') := by
  simp only [plainSeg, Bool.and_eq_true, List.all_eq_true] at h
  intro c hc
  have := h.2 c hc
  simpa using this

theorem plainSeg_ne_nil {s : String} (h : plainSeg s = true) : s.data ≠ [] := by
  simp only [plainSeg, Bool.and_eq_true] at h
  intro hn
  have : s = "" := by
    cases s
    simp only [String.data] at hn
    simp [hn]
  rw [this] at h
  simp at h

theorem joinSlash_data_cons (s : String) (r : String) (rest : List String) :
    (joinSlash (s :: r :: rest)).data = s.data ++ '/' :: (joinSlash (r :: rest)).data := by
  show (s ++ "/" ++ joinSlash (r :: rest)).data = _
  have h1 : (s ++ "/" ++ joinSlash (r :: rest)).data
      = s.data ++ "/".data ++ (joinSlash (r :: rest)).data := rfl
  rw [h1]
  simp

theorem splitSlashChars_joinSlash : ∀ (parts : List String), parts ≠ [] →
    (∀ s ∈ parts, plainSeg s = true) →
    splitSlashChars (joinSlash parts).data = parts.map String.data
  | [], h, _ => absurd rfl h
  | [s], _, hp => by
    have := splitSlashChars_noSlash (plainSeg_no_slash (hp s (List.mem_cons_self _ _)))
    simpa [joinSlash] using this
  | s :: r :: rest, _, hp => by
    rw [joinSlash_data_cons]
    rw [splitSlashChars_append _ (plainSeg_no_slash (hp s (List.mem_cons_self _ _)))]
    rw [splitSlashChars_joinSlash (r :: rest) (by simp)
      (fun x hx => hp x (List.mem_cons_of_mem _ hx))]
    rfl

theorem joinSlash_data_ne_nil : ∀ (parts : List String), parts ≠ [] →
    (∀ s ∈ parts, plainSeg s = true) → (joinSlash parts).data ≠ []
  | [], h, _ => absurd rfl h
  | [s], _, hp => by
    simpa [joinSlash] using plainSeg_ne_nil (hp s (List.mem_cons_self _ _))
  | s :: r :: rest, _, hp => by
    rw [joinSlash_data_cons]
    have := plainSeg_ne_nil (hp s (List.mem_cons_self _ _))
    intro hc
    rcases List.append_eq_nil.mp hc with ⟨h1, h2⟩
    exact this h1

theorem joinSlash_head_no_slash : ∀ (parts : List String), parts ≠ [] →
    (∀ s ∈ parts, plainSeg s = true) →
    ∀ c ∈ (joinSlash parts).data.head?, ¬(c = '/')
  | [], h, _ => absurd rfl h
  | [s], _, hp => by
    intro c hc
    simp only [joinSlash] at hc
    have hs := hp s (List.mem_cons_self _ _)
    have := plainSeg_no_slash hs
    exact this c (List.mem_of_mem_head? hc)
  | s :: r :: rest, _, hp => by
    intro c hc
    rw [joinSlash_data_cons] at hc
    have hs := hp s (List.mem_cons_self _ _)
    rw [List.head?_append_of_ne_nil _ (plainSeg_ne_nil hs)] at hc
    have := plainSeg_no_slash hs
    exact this c (List.mem_of_mem_head? hc)

theorem joinSlash_getLast_no_slash : ∀ (parts : List String), parts ≠ [] →
    (∀ s ∈ parts, plainSeg s = true) →
    ∀ c ∈ (joinSlash parts).data.getLast?, ¬(c = '/')
  | [], h, _ => absurd rfl h
  | [s], _, hp => by
    intro c hc
    simp only [joinSlash] at hc
    exact plainSeg_no_slash (hp s (List.mem_cons_self _ _)) c (List.mem_of_mem_getLast? hc)
  | s :: r :: rest, _, hp => by
    intro c hc
    rw [joinSlash_data_cons] at hc
    have hne := joinSlash_data_ne_nil (r :: rest) (by simp)
      (fun x hx => hp x (List.mem_cons_of_mem _ hx))
    rw [List.getLast?_append] at hc
    have hj : c ∈ (joinSlash (r :: rest)).data.getLast? := by
      cases hd : (joinSlash (r :: rest)).data with
      | nil => exact absurd hd hne
      | cons x xs =>
        rw [hd] at hc
        rw [List.getLast?_cons_cons] at hc
        cases hy : (x :: xs).getLast? with
        | none => exact absurd (List.getLast?_eq_none_iff.mp hy) (by simp)
        | some y =>
          rw [hy] at hc
          simpa [Option.or] using hc
    exact joinSlash_getLast_no_slash (r :: rest) (by simp)
      (fun x hx => hp x (List.mem_cons_of_mem _ hx)) c hj

theorem dropWhile_eq_self_of_head {l : List Char} {p : Char → Bool}
    (h : ∀ c ∈ l.head?, p c = false) : l.dropWhile p = l := by
  cases l with
  | nil => rfl
  | cons x xs =>
    have hx : p x = false := h x rfl
    simp [List.dropWhile, hx]

theorem strip_slash_join (parts : List String) (h1 : parts ≠ [])
    (h2 : ∀ s ∈ parts, plainSeg s = true) :
    stripSlashChars ('/' :: (joinSlash parts).data) = (joinSlash parts).data := by
  unfold stripSlashChars
  have hd1 : List.dropWhile (fun c => c = '/') ('/' :: (joinSlash parts).data)
      = List.dropWhile (fun c => c = '/') (joinSlash parts).data := by
    simp [List.dropWhile]
  rw [hd1]
  have hd2 : List.dropWhile (fun c => c = '/') (joinSlash parts).data
      = (joinSlash parts).data := by
    apply dropWhile_eq_self_of_head
    intro c hc
    have := joinSlash_head_no_slash parts h1 h2 c hc
    simpa using this
  rw [hd2]
  have hd3 : List.dropWhile (fun c => c = '/') (joinSlash parts).data.reverse
      = (joinSlash parts).data.reverse := by
    apply dropWhile_eq_self_of_head
    intro c hc
    rw [List.head?_reverse] at hc
    have := joinSlash_getLast_no_slash parts h1 h2 c hc
    simpa using this
  rw [hd3, List.reverse_reverse]

/-! ## Round-trip: navigate inverts _build_path on well-formed trees -/

theorem at_append_data (s : String) : ("@" ++ s).data = '@' :: s.data := rfl

theorem strTail_at (s : String) : strTail ("@" ++ s) = s := rfl

theorem slash_append_data (s : String) : ("/" ++ s).data = '/' :: s.data := rfl

theorem wfChildren_mem {l : List NSNode} (h : wfChildren l = true) :
    ∀ c ∈ l, wfNode c = true := by
  induction l with
  | nil => intro c hc; cases hc
  | cons hd tl ih =>
    simp only [wfChildren, Bool.and_eq_true] at h
    intro c hc
    rcases List.mem_cons.mp hc with rfl | hc
    · exact h.1
    · exact ih h.2 c hc

theorem wfNode_parts {i : Nat} {nm m cn : Option String} {attrs : List NSAttr}
    {children : List NSNode} (h : wfNode (.node i nm m cn attrs children) = true) :
    (∀ a ∈ attrs, ∀ s, a.name = some s → goodAttrName s = true)
    ∧ (∀ c ∈ children, ∀ s, emittedName c = some s → goodChildSeg s = true)
    ∧ noDupAttrNames attrs = true
    ∧ noEarlierMatch children = true
    ∧ wfChildren children = true := by
  simp only [wfNode, Bool.and_eq_true] at h
  obtain ⟨⟨⟨⟨h1, h2⟩, h3⟩, h4⟩, h5⟩ := h
  refine ⟨?_, ?_, h3, h4, h5⟩
  · intro a ha s hs
    have := List.all_eq_true.mp h1 a ha
    rw [hs] at this
    exact this
  · intro c hc s hs
    have := List.all_eq_true.mp h2 c hc
    rw [hs] at this
    exact this

theorem noEarlierMatch_parts {c : NSNode} {rest : List NSNode}
    (h : noEarlierMatch (c :: rest) = true) :
    (∀ later ∈ rest, ∀ s, emittedName later = some s → matchesChild c s = false)
    ∧ noEarlierMatch rest = true := by
  simp only [noEarlierMatch, Bool.and_eq_true] at h
  refine ⟨?_, h.2⟩
  intro later hl s hs
  have := List.all_eq_true.mp h.1 later hl
  rw [hs] at this
  simpa using this

theorem matchesChild_own_emittedName {c : NSNode} {s : String}
    (h : emittedName c = some s) : matchesChild c s = true := by
  unfold emittedName at h
  split at h
  · simp only [matchesChild, Bool.or_eq_true, Bool.and_eq_true, beq_iff_eq]
    exact Or.inl (Or.inl h)
  · split at h
    · rename_i hmod
      simp only [Bool.and_eq_true, Bool.or_eq_true, beq_iff_eq] at hmod
      simp only [matchesChild, Bool.or_eq_true, Bool.and_eq_true, beq_iff_eq]
      rcases hmod.1 with hm | hm
      · exact Or.inl (Or.inr ⟨hm, h⟩)
      · exact Or.inr ⟨hm, h⟩
    · cases h

theorem attr_find_of_buildAttrSeg {attrs : List NSAttr} {tid : Nat} {seg : String}
    (hdup : noDupAttrNames attrs = true) (h : buildAttrSeg attrs tid = some seg) :
    ∃ a aname, a ∈ attrs ∧ a.name = some aname ∧ truthyS a.name = true
      ∧ seg = "@" ++ aname ∧ a.aid = tid
      ∧ attrs.find? (fun x => x.name == some aname) = some a := by
  induction attrs with
  | nil => cases h
  | cons hd tl ih =>
    simp only [buildAttrSeg] at h
    simp only [noDupAttrNames, Bool.and_eq_true] at hdup
    split at h
    · rename_i hc
      cases h
      obtain ⟨haid, htr⟩ := hc
      cases hname : hd.name with
      | none => rw [hname] at htr; simp [truthyS] at htr
      | some aname =>
        refine ⟨hd, aname, List.mem_cons_self _ _, hname, by simp only [hname] at htr ⊢; exact htr, ?_, haid, ?_⟩
        · rfl
        · exact List.find?_cons_of_pos _ (by simp [hname])
    · rename_i hc
      obtain ⟨a, aname, hmem, hname, htr, hseg, haid, hfind⟩ := ih hdup.2 h
      refine ⟨a, aname, List.mem_cons_of_mem _ hmem, hname, htr, hseg, haid, ?_⟩
      have hne : (hd.name == some aname) = false := by
        have hall := List.all_eq_true.mp hdup.1 a hmem
        rw [htr] at hall
        simp only [Bool.not_true, Bool.false_or] at hall
        rw [hname] at hall
        simpa using hall
      rw [List.find?_cons_of_neg _ (by simp [hne]), hfind]

mutual

theorem navigate_of_buildPath : ∀ (n : NSNode) (tid : Nat) (parts : List String),
    wfNode n = true → buildPath n tid = some parts →
    ∃ r, navigate n parts = .ok r ∧ resultId r = tid
  | .node i nm m cn attrs children, tid, parts, hwf, hb => by
    obtain ⟨hattr, hchild, hdup, hnem, hwfc⟩ := wfNode_parts hwf
    simp only [buildPath] at hb
    split at hb
    · rename_i htid
      cases hb
      exact ⟨.nodeRes (.node i nm m cn attrs children), rfl, htid⟩
    · split at hb
      · rename_i seg hseg
        cases hb
        obtain ⟨a, aname, hmem, hname, htr, hsegeq, haid, hfind⟩ :=
          attr_find_of_buildAttrSeg hdup hseg
        subst hsegeq
        refine ⟨.attrRes a, ?_, haid⟩
        have h1 : headIs '@' ("@" ++ aname) = true := by
          simp [headIs, at_append_data]
        show navigate _ ["@" ++ aname] = _
        simp only [navigate, h1, if_true, strTail_at, List.isEmpty, Bool.not_true,
          Bool.false_eq_true, if_false, NSNode.attrs]
        rw [hfind]
      · rename_i hnoattr
        obtain ⟨nm2, rest2, c, hparts, hcmem, hcemit, hfind, r, hnav, hid⟩ :=
          navigate_of_buildPathChildren children tid parts hwfc hnem hb
        subst hparts
        refine ⟨r, ?_, hid⟩
        have hgood := hchild c hcmem nm2 hcemit
        have hnotat : headIs '@' nm2 = false := by
          simp only [goodChildSeg, Bool.and_eq_true] at hgood
          simpa using hgood.2
        show navigate _ (nm2 :: rest2) = _
        simp only [navigate, hnotat, Bool.false_eq_true, if_false, NSNode.children]
        rw [hfind]
        exact hnav

theorem navigate_of_buildPathChildren : ∀ (l : List NSNode) (tid : Nat) (parts : List String),
    wfChildren l = true → noEarlierMatch l = true →
    buildPathChildren l tid = some parts →
    ∃ nm2 rest2 c, parts = nm2 :: rest2 ∧ c ∈ l ∧ emittedName c = some nm2
      ∧ l.find? (fun x => matchesChild x nm2) = some c
      ∧ ∃ r, navigate c rest2 = .ok r ∧ resultId r = tid
  | [], _, _, _, _, hb => by cases hb
  | hd :: tl, tid, parts, hwf, hnem, hb => by
    simp only [wfChildren, Bool.and_eq_true] at hwf
    obtain ⟨hearlier, hnem2⟩ := noEarlierMatch_parts hnem
    simp only [buildPathChildren] at hb
    split at hb
    · rename_i nmh hnmh
      split at hb
      · rename_i p hp
        cases hb
        obtain ⟨r, hnav, hid⟩ := navigate_of_buildPath hd tid p hwf.1 hp
        refine ⟨nmh, p, hd, rfl, List.mem_cons_self _ _, hnmh, ?_, r, hnav, hid⟩
        exact List.find?_cons_of_pos _ (matchesChild_own_emittedName hnmh)
      · obtain ⟨nm2, rest2, c, hparts, hcmem, hcemit, hfind, hr⟩ :=
          navigate_of_buildPathChildren tl tid parts hwf.2 hnem2 hb
        refine ⟨nm2, rest2, c, hparts, List.mem_cons_of_mem _ hcmem, hcemit, ?_, hr⟩
        rw [List.find?_cons_of_neg _ (by simp [hearlier c hcmem nm2 hcemit]), hfind]
    · obtain ⟨nm2, rest2, c, hparts, hcmem, hcemit, hfind, hr⟩ :=
        navigate_of_buildPathChildren tl tid parts hwf.2 hnem2 hb
      refine ⟨nm2, rest2, c, hparts, List.mem_cons_of_mem _ hcmem, hcemit, ?_, hr⟩
      rw [List.find?_cons_of_neg _ (by simp [hearlier c hcmem nm2 hcemit]), hfind]

end

theorem buildPathChildren_ne_nil {l : List NSNode} {tid : Nat} {parts : List String}
    (h : buildPathChildren l tid = some parts) : parts ≠ [] := by
  induction l with
  | nil => cases h
  | cons hd tl ih =>
    simp only [buildPathChildren] at h
    split at h
    · split at h
      · cases h; simp
      · exact ih h
    · exact ih h

theorem buildPath_nil_id {n : NSNode} {tid : Nat} (h : buildPath n tid = some []) :
    n.nid = tid := by
  obtain ⟨i, nm, m, cn, attrs, children⟩ := n
  simp only [buildPath] at h
  split at h
  · assumption
  · split at h
    · cases h
    · exact absurd rfl (buildPathChildren_ne_nil h)

mutual

theorem buildPath_parts_plain : ∀ (n : NSNode) (tid : Nat) (parts : List String),
    wfNode n = true → buildPath n tid = some parts → ∀ s ∈ parts, plainSeg s = true
  | .node i nm m cn attrs children, tid, parts, hwf, hb => by
    obtain ⟨hattr, hchild, hdup, hnem, hwfc⟩ := wfNode_parts hwf
    simp only [buildPath] at hb
    split at hb
    · cases hb; intro s hs; cases hs
    · split at hb
      · rename_i seg hseg
        cases hb
        obtain ⟨a, aname, hmem, hname, htr, hsegeq, haid, hfind⟩ :=
          attr_find_of_buildAttrSeg hdup hseg
        subst hsegeq
        intro s hs
        rcases List.mem_cons.mp hs with rfl | hs
        · have hga := hattr a hmem aname hname
          simp only [goodAttrName, List.all_eq_true] at hga
          simp only [plainSeg, Bool.and_eq_true, List.all_eq_true]
          constructor
          · simp only [Bool.not_eq_true', beq_eq_false_iff_ne, ne_eq]
            intro hcon
            have h0 : ("@" ++ aname).data = ("" : String).data := by rw [hcon]
            rw [at_append_data] at h0
            cases h0
          · intro c hc
            rw [at_append_data] at hc
            rcases List.mem_cons.mp hc with rfl | hc
            · simp
            · exact hga c hc
        · cases hs
      · exact buildPathChildren_parts_plain children tid parts hwfc hchild hb

theorem buildPathChildren_parts_plain : ∀ (l : List NSNode) (tid : Nat) (parts : List String),
    wfChildren l = true → (∀ c ∈ l, ∀ s, emittedName c = some s → goodChildSeg s = true) →
    buildPathChildren l tid = some parts → ∀ s ∈ parts, plainSeg s = true
  | [], _, _, _, _, hb => by cases hb
  | hd :: tl, tid, parts, hwf, hchild, hb => by
    simp only [wfChildren, Bool.and_eq_true] at hwf
    simp only [buildPathChildren] at hb
    split at hb
    · rename_i nmh hnmh
      split at hb
      · rename_i p hp
        cases hb
        intro s hs
        rcases List.mem_cons.mp hs with rfl | hs
        · have := hchild hd (List.mem_cons_self _ _) s hnmh
          simp only [goodChildSeg, Bool.and_eq_true] at this
          exact this.1
        · exact buildPath_parts_plain hd tid p hwf.1 hp s hs
      · exact buildPathChildren_parts_plain tl tid parts hwf.2
          (fun c hc => hchild c (List.mem_cons_of_mem _ hc)) hb
    · exact buildPathChildren_parts_plain tl tid parts hwf.2
        (fun c hc => hchild c (List.mem_cons_of_mem _ hc)) hb

end

/-! ## Claim C7: get_path / lookup round trip -/

theorem string_data_eq_nil_iff (s : String) : s.data = [] ↔ s = "" := by
  constructor
  · intro h
    have h2 : String.mk s.data = String.mk [] := by rw [h]
    rw [string_eta] at h2
    exact h2
  · intro h; rw [h]

/-- C7 amended: on well-formed trees (path-safe names, no shadowed sibling
or attribute names, per wfNode), every record for which get_path returns a
path is recovered by looking that path up from the same root: the lookup
succeeds and returns the record with the same identity. -/
theorem c7_getPath_lookup_roundtrip (root : NSNode) (tid : Nat) (p : String)
    (hwf : wfNode root = true) (h : getPath root tid = some p) :
    ∃ r, navLookup root p = .ok r ∧ resultId r = tid := by
  unfold getPath at h
  cases hbp : buildPath root tid with
  | none => rw [hbp] at h; cases h
  | some parts =>
    rw [hbp] at h
    cases parts with
    | nil =>
      simp only [Option.some.injEq] at h
      subst h
      refine ⟨.nodeRes root, ?_, buildPath_nil_id hbp⟩
      rfl
    | cons q qs =>
      simp only [Option.some.injEq] at h
      subst h
      have hplain : ∀ s ∈ q :: qs, plainSeg s = true :=
        buildPath_parts_plain root tid (q :: qs) hwf hbp
      have hnil : (q :: qs : List String) ≠ [] := by simp
      have hdata : ("/" ++ joinSlash (q :: qs)).data = '/' :: (joinSlash (q :: qs)).data :=
        slash_append_data _
      have hstrip : strStripSlash ("/" ++ joinSlash (q :: qs)) = joinSlash (q :: qs) := by
        unfold strStripSlash
        rw [hdata, strip_slash_join (q :: qs) hnil hplain, string_eta]
      have hne : ¬(joinSlash (q :: qs) = "") := by
        intro hcon
        exact joinSlash_data_ne_nil (q :: qs) hnil hplain
          ((string_data_eq_nil_iff _).mpr hcon)
      have hsplit : strSplitSlash (joinSlash (q :: qs)) = q :: qs := by
        unfold strSplitSlash
        rw [splitSlashChars_joinSlash (q :: qs) hnil hplain]
        rw [List.map_map]
        have : (q :: qs).map (String.mk ∘ String.data) = (q :: qs).map id :=
          List.map_congr_left (fun a _ => string_eta a)
        rw [this, List.map_id]
      obtain ⟨r, hnav, hid⟩ := navigate_of_buildPath root tid (q :: qs) hwf hbp
      refine ⟨r, ?_, hid⟩
      unfold navLookup
      rw [hstrip]
      rw [if_neg hne, hsplit]
      exact hnav

def c7c1 : NSNode := .node 1 (some "x") none none [] []

def c7c2 : NSNode := .node 2 (some "x") (some "sibling-data") none [] []

def c7root : NSNode := .node 0 (some "root") none none [] [c7c1, c7c2]

/-- C7 counterexample: in a tree with two sibling children both named x,
get_path of the second sibling (identity 2) returns /x, but looking /x up
returns the first sibling (identity 1), a different record, so the round
trip of the claim fails on this tree. -/
theorem c7_counterexample :
    getPath c7root 2 = some "/x"
    ∧ navLookup c7root "/x" = .ok (.nodeRes c7c1)
    ∧ resultId (NavResult.nodeRes c7c1) = 1
    ∧ (1 : Nat) ≠ 2 := by
  refine ⟨rfl, rfl, rfl, by decide⟩

/-- Witness for the amended C7 on a concrete well-formed tree: the path of
the NX_class attribute record (identity 3) is /entry/@NX_class, and looking
it up returns that record. -/
theorem c7_getPath_lookup_roundtrip_witness :
    ∃ r, navLookup c8root "/entry/@NX_class" = .ok r ∧ resultId r = 3 :=
  c7_getPath_lookup_roundtrip c8root 3 "/entry/@NX_class" (by decide) rfl

/-! ## Expression resolver (NXInstr.expr2nx, instr.py lines 230-268)

The mccode_antlr Expr objects are an external data contract; an MExpr
records the outcomes of the operations expr2nx performs on them:
is_constant, str(expr), and the set of names the (evaluated) expression
depends_on.  The substitution expr.evaluate(self.declared) is the
declaredEval field of the resolver model, and instr.parameters contributes
the parameter name list. -/

structure MExpr where
  is_constant : Bool
  text : String
  deps : List String
  constValue : Int
deriving DecidableEq, Repr

/-- The fields of NXInstr that expr2nx reads. -/
structure NXInstrModel where
  declaredEval : MExpr → MExpr
  parameters : List String
  nxlog_root : String

/-- A value returned by expr2nx: a constant, a linked NXlog (Link
Descriptor), an NXcollection link bundle tagged with the expression text,
or the plain expression text. -/
inductive NXValue : Type where
  | const (v : Int)
  | link (address : String)
  | collection (expression : String) (links : List (String × String))
  | text (s : String)
deriving DecidableEq, Repr

/-- Modelled from the spec: linked_nxlog lives in moreniius/utils.py, which
is not under src/; per the spec it builds a Link Descriptor (an NXlog group
containing a link) addressed at the given target address. -/
def linked_nxlog (address : String) : NXValue :=
  NXValue.link address

/-- Modelled from the spec: link_specifier lives in moreniius/utils.py,
which is not under src/; per the spec it builds one Link Descriptor record
carrying the dependency name and its absolute source address. -/
def link_specifier (par : String) (source : String) : String × String :=
  (par, source)

/-- The dependency list of instr.py line 257: the instrument parameter
names the evaluated expression still depends on, in parameter order. -/
def dependsList (m : NXInstrModel) (evaluated : MExpr) : List String :=
  m.parameters.filter (fun p => evaluated.deps.contains p)

/-- Model of NXInstr.expr2nx on an Expr quantity (instr.py lines 250-268),
returning the resolved value together with the flag recording whether
log.warn was called.  The earlier passthrough branches (NotNXdict, NXlog,
iterables, non-Expr values, lines 237-248) neither raise nor warn and are
not part of any claim. -/
def expr2nx (m : NXInstrModel) (expr : MExpr) : NXValue × Bool :=
  if expr.is_constant then (NXValue.const expr.constValue, false)
  else
    let evaluated := m.declaredEval expr
    if evaluated.is_constant then (NXValue.const evaluated.constValue, false)
    else
      let dependencies := dependsList m evaluated
      match dependencies with
      | [p] =>
        if expr.text = p then (linked_nxlog (m.nxlog_root ++ "/" ++ p), false)
        else (NXValue.collection expr.text [link_specifier p (m.nxlog_root ++ "/" ++ p)], true)
      | [] => (NXValue.text expr.text, false)
      | ps => (NXValue.collection expr.text
          (ps.map (fun p => link_specifier p (m.nxlog_root ++ "/" ++ p))), true)

/-! ## Claim C5: the resolver never raises, and when it warns -/

def c5model : NXInstrModel := ⟨fun e => e, [], "/entry/instrument/parameters"⟩

def c5expr : MExpr := ⟨false, "a + b", [], 0⟩

/-- C5 counterexample: a symbolic expression that stays non-constant after
substitution and depends on no instrument parameter falls back to its
textual form with the warning flag false, contradicting the claim that
every textual fallback emits a diagnostic warning. -/
theorem c5_counterexample :
    expr2nx c5model c5expr = (NXValue.text "a + b", false) := by
  rfl

/-- C5 amended: resolution is total (never raises), and it emits a
diagnostic warning exactly when it returns a link bundle (NXcollection);
the textual-form fallback is silent. -/
theorem c5_warns_iff_collection (m : NXInstrModel) (e : MExpr) :
    (expr2nx m e).2 = true ↔ ∃ t ls, (expr2nx m e).1 = NXValue.collection t ls := by
  unfold expr2nx
  cases h1 : e.is_constant with
  | true => simp
  | false =>
    cases h2 : (m.declaredEval e).is_constant with
    | true => simp [h2]
    | false =>
      cases h3 : dependsList m (m.declaredEval e) with
      | nil => simp [h2, h3]
      | cons p ps =>
        cases ps with
        | nil =>
          by_cases h4 : e.text = p <;> simp [h2, h3, h4, linked_nxlog]
        | cons q qs => simp [h2, h3]

/-! ## Claim C6: bare instrument parameters become single links -/

/-- C6: a symbolic quantity that stays symbolic after substituting the
declared constants, depends on exactly one instrument parameter, and is
syntactically the bare reference of that parameter, resolves to a single
Link Descriptor addressed at nxlog_root/parameter (instr.py lines 257-260).
The two non-constant hypotheses state that the quantity is symbolic, as the
claim and the data contract (a constant depends on nothing) require. -/
theorem c6_bare_parameter_link (m : NXInstrModel) (e : MExpr) (p : String)
    (h1 : e.is_constant = false)
    (h2 : (m.declaredEval e).is_constant = false)
    (h3 : dependsList m (m.declaredEval e) = [p])
    (h4 : e.text = p) :
    expr2nx m e = (linked_nxlog (m.nxlog_root ++ "/" ++ p), false) := by
  unfold expr2nx
  rw [h1]
  simp only [Bool.false_eq_true, if_false]
  rw [h2]
  simp only [Bool.false_eq_true, if_false]
  simp [h3, h4]

def c6model : NXInstrModel := ⟨fun e => e, ["phi"], "/entry/instrument/parameters"⟩

def c6expr : MExpr := ⟨false, "phi", ["phi"], 0⟩

/-- Witness for C6, the scenario of the spec: resolving the bare parameter
phi with log-root /entry/instrument/parameters yields a Link Descriptor
addressed at /entry/instrument/parameters/phi. -/
theorem c6_bare_parameter_link_witness :
    expr2nx c6model c6expr = (linked_nxlog "/entry/instrument/parameters/phi", false) := by
  have h := c6_bare_parameter_link c6model c6expr "phi" rfl rfl (by decide) rfl
  simpa using h

/-! ## Decimal formatting for synthesized node names

The chain synthesizer names nodes with Python f-strings interpolating a
running integer index; natStr models the decimal rendering str(i). -/

def digitCharOf (d : Nat) : Char := Char.ofNat (48 + d)

/-- Little-endian decimal digits with explicit fuel, so that the kernel can
evaluate it on literals. -/
def natDigitsAux : Nat → Nat → List Nat
  | 0, _ => []
  | fuel + 1, n => if n = 0 then [] else (n % 10) :: natDigitsAux fuel (n / 10)

def natDigits (n : Nat) : List Nat := natDigitsAux n n

/-- The value of a little-endian digit list. -/
def digitsVal : List Nat → Nat
  | [] => 0
  | d :: ds => d + 10 * digitsVal ds

theorem natDigitsAux_val : ∀ (fuel n : Nat), n ≤ fuel →
    digitsVal (natDigitsAux fuel n) = n
  | 0, n, h => by
    simp only [natDigitsAux, digitsVal]
    omega
  | fuel + 1, n, h => by
    simp only [natDigitsAux]
    split
    · rename_i h0
      simp [digitsVal, h0]
    · rename_i h0
      simp only [digitsVal]
    
      rw [natDigitsAux_val fuel (n / 10) (by omega)]
      omega

theorem natDigits_val (n : Nat) : digitsVal (natDigits n) = n :=
  natDigitsAux_val n n (Nat.le_refl n)

theorem natDigits_inj {a b : Nat} (h : natDigits a = natDigits b) : a = b := by
  have ha := natDigits_val a
  have hb := natDigits_val b
  rw [h] at ha
  rw [← ha, hb]

theorem natDigitsAux_lt : ∀ (fuel n : Nat), ∀ d ∈ natDigitsAux fuel n, d < 10
  | 0, n, d, hd => by simp [natDigitsAux] at hd
  | fuel + 1, n, d, hd => by
    simp only [natDigitsAux] at hd
    split at hd
    · cases hd
    · rcases List.mem_cons.mp hd with rfl | hd
      · omega
      · exact natDigitsAux_lt fuel (n / 10) d hd

theorem natDigits_lt (n : Nat) : ∀ d ∈ natDigits n, d < 10 :=
  natDigitsAux_lt n n

theorem natDigits_ne_nil {n : Nat} (h : n ≠ 0) : natDigits n ≠ [] := by
  unfold natDigits
  cases n with
  | zero => exact absurd rfl h
  | succ k =>
    simp [natDigitsAux]

/-- Model of the Python decimal formatting str(i) used by the f-strings of
orientation.py. -/
def natStr (n : Nat) : String :=
  if n = 0 then "0" else String.mk ((natDigits n).reverse.map digitCharOf)

theorem digitCharOf_isDigit : ∀ d, d < 10 → (digitCharOf d).isDigit = true := by decide

theorem digitCharOf_inj : ∀ d, d < 10 → ∀ e, e < 10 → digitCharOf d = digitCharOf e → d = e := by
  decide

theorem natStr_data_ne_nil (n : Nat) : (natStr n).data ≠ [] := by
  unfold natStr
  split
  · intro h; cases h
  · rename_i hn
    intro h
    simp only [String.mk] at h
    rcases List.map_eq_nil_iff.mp h with h2
    rw [List.reverse_eq_nil_iff] at h2
    exact natDigits_ne_nil hn h2

theorem natStr_all_digit (n : Nat) : ∀ c ∈ (natStr n).data, c.isDigit = true := by
  unfold natStr
  split
  · intro c hc
    rcases List.mem_singleton.mp hc with rfl
    decide
  · intro c hc
    simp only [String.mk] at hc
    rcases List.mem_map.mp hc with ⟨d, hd, rfl⟩
    rw [List.mem_reverse] at hd
    exact digitCharOf_isDigit d (natDigits_lt n d hd)

theorem map_digitCharOf_inj : ∀ (l1 l2 : List Nat), (∀ d ∈ l1, d < 10) → (∀ d ∈ l2, d < 10) →
    l1.map digitCharOf = l2.map digitCharOf → l1 = l2
  | [], [], _, _, _ => rfl
  | [], _ :: _, _, _, h => by cases h
  | _ :: _, [], _, _, h => by cases h
  | a :: l1, b :: l2, h1, h2, h => by
    simp only [List.map_cons, List.cons.injEq] at h
    have hab : a = b := digitCharOf_inj a (h1 a (List.mem_cons_self _ _))
      b (h2 b (List.mem_cons_self _ _)) h.1
    rw [hab, map_digitCharOf_inj l1 l2 (fun d hd => h1 d (List.mem_cons_of_mem _ hd))
      (fun d hd => h2 d (List.mem_cons_of_mem _ hd)) h.2]

theorem natStr_singleton_zero {b : Nat} (hb : b ≠ 0)
    (h : ((natDigits b).reverse.map digitCharOf) = ['0']) : False := by
  have : ∃ d, (natDigits b).reverse = [d] ∧ digitCharOf d = '0' := by
    cases hrev : (natDigits b).reverse with
    | nil => rw [hrev] at h; cases h
    | cons d rest =>
      rw [hrev] at h
      cases rest with
      | nil =>
        refine ⟨d, rfl, ?_⟩
        simp only [List.map_cons, List.map_nil] at h
        exact (List.cons.injEq _ _ _ _ ▸ h).1
      | cons d2 rest2 => simp at h
  obtain ⟨d, hrev, hd0⟩ := this
  have hdlt : d < 10 := by
    have : d ∈ natDigits b := by
      rw [← List.mem_reverse, hrev]; exact List.mem_singleton.mpr rfl
    exact natDigits_lt b d this
  have hd : d = 0 := digitCharOf_inj d hdlt 0 (by norm_num) (by rw [hd0]; rfl)
  have hdig : natDigits b = [0] := by
    have := congrArg List.reverse hrev
    simpa [hd] using this
  have := natDigits_val b
  rw [hdig] at this
  simp [digitsVal] at this
  exact hb this.symm

theorem natStr_inj {a b : Nat} (h : natStr a = natStr b) : a = b := by
  have hdata : (natStr a).data = (natStr b).data := by rw [h]
  unfold natStr at hdata
  by_cases ha : a = 0 <;> by_cases hb : b = 0
  · rw [ha, hb]
  · exfalso
    rw [if_pos ha, if_neg hb] at hdata
    simp only [String.mk] at hdata
    exact natStr_singleton_zero hb hdata.symm
  · exfalso
    rw [if_neg ha, if_pos hb] at hdata
    simp only [String.mk] at hdata
    exact natStr_singleton_zero ha hdata
  · rw [if_neg ha, if_neg hb] at hdata
    simp only [String.mk] at hdata
    have hrev := map_digitCharOf_inj _ _
      (fun d hd => natDigits_lt a d (List.mem_reverse.mp hd))
      (fun d hd => natDigits_lt b d (List.mem_reverse.mp hd)) hdata
    have hdig : natDigits a = natDigits b := by
      have := congrArg List.reverse hrev
      simpa using this
    exact natDigits_inj hdig

/-! ## Transformation chain synthesizer (orientation.py)

The mccode_antlr Part objects (the Pose Model) are an external data
contract; a Part here records the outcomes of every operation the
synthesizer performs on one: the is_translation and is_rotation flags, the
result of comparing each position component against Expr.parse of zero,
whether any component is an Expr or Value instance, whether the constant
vector norm is_zero, and whether rotation_axis_angle raises.  The NXfield
payload of a node (value, vector, units) is carried through expr2nx and
never inspected by the chain logic, so a node here keeps the two fields the
chain claims speak about: its depends_on string and its kind tag. -/

structure MPart where
  is_translation : Bool
  is_rotation : Bool
  xIsZero : Bool
  yIsZero : Bool
  zIsZero : Bool
  anyExprComponent : Bool
  normIsZero : Bool
  rotationFails : Bool
deriving DecidableEq, Repr

/-- One emitted transformation node: the depends_on pointer handed to
make_translation or the rotation NXfield, and the transformation_type. -/
structure TNode where
  depends_on : String
  transformation_type : String
deriving DecidableEq, Repr

/-- Model of NXPart.translations (orientation.py lines 24-41).  When any
component is an Expr or Value, one node per nonzero component is emitted
with an axis suffix, chained in x, y, z order; otherwise the whole constant
vector collapses to a single node (whatever its norm, including zero). -/
def NXPart.translations (p : MPart) (dep : String) (name : String) : List (String × TNode) :=
  if p.anyExprComponent then
    let s1 : List (String × TNode) × String :=
      if p.xIsZero then ([], dep)
      else ([(name ++ "_x", ⟨dep, "translation"⟩)], name ++ "_x")
    let s2 : List (String × TNode) × String :=
      if p.yIsZero then s1
      else (s1.1 ++ [(name ++ "_y", ⟨s1.2, "translation"⟩)], name ++ "_y")
    let s3 : List (String × TNode) × String :=
      if p.zIsZero then s2
      else (s2.1 ++ [(name ++ "_z", ⟨s2.2, "translation"⟩)], name ++ "_z")
    s3.1
  else [(name, ⟨dep, "translation"⟩)]

/-- Model of NXPart.rotation (orientation.py lines 43-55); none models the
NotImplementedError raised when rotation_axis_angle fails. -/
def NXPart.rotation (p : MPart) (dep : String) : Option TNode :=
  if p.rotationFails then none else some ⟨dep, "rotation"⟩

/-- Model of NXPart.transformations (orientation.py lines 57-67); none
models an escaped exception: the IndexError on ops when a part that is both
translation and rotation emits no translation node, or the rotation
failure. -/
def NXPart.transformations (p : MPart) (name : String) (dep : String) :
    Option (List (String × TNode)) :=
  if p.is_translation && p.is_rotation then
    let ops := NXPart.translations p dep name
    match ops.getLast? with
    | none => none
    | some last =>
      match NXPart.rotation p last.1 with
      | none => none
      | some rot => some (ops ++ [(name ++ "_r", rot)])
  else if p.is_translation then some (NXPart.translations p dep name)
  else if p.is_rotation then
    match NXPart.rotation p dep with
    | none => none
    | some rot => some [(name, rot)]
  else some []

/-- The name prefix of the nodes of stack entry i: name_typ followed by the
decimal index, as in the f-string of orientation.py line 79. -/
def typName (nm : String) (typ : Char) (i : Nat) : String :=
  nm ++ "_" ++ String.mk [typ] ++ natStr i

/-- Model of the loop of NXParts._transformations (orientation.py lines
76-83): each stack entry is translated with a running index, and the
dependency is advanced to the last emitted node name whenever the entry
emitted anything. -/
def transAux (nm : String) (typ : Char) : Nat → String → List MPart →
    Option (List (String × TNode))
  | _, _, [] => some []
  | i, dep, p :: rest =>
    match NXPart.transformations p (typName nm typ i) dep with
    | none => none
    | some parts =>
      let dep2 := match parts.getLast? with
        | some lastPair => lastPair.1
        | none => dep
      match transAux nm typ (i + 1) dep2 rest with
      | none => none
      | some restL => some (parts ++ restL)

/-- Python falsy-or: dep or the no-dependency sentinel, treating None and
the empty string as falsy (orientation.py lines 86 and 90). -/
def orDot : Option String → String
  | none => "."
  | some s => if s = "" then "." else s

/-- The two parts stacks held by NXParts (orientation.py lines 70-74). -/
structure PartsStacks where
  position : List MPart
  rotation : List MPart
deriving Repr

/-- Model of NXParts.position_transformations (orientation.py lines 85-87). -/
def NXParts.position_transformations (ps : PartsStacks) (nm : String)
    (dep : Option String) : Option (List (String × TNode)) :=
  transAux nm 't' 0 (orDot dep) ps.position

/-- Model of NXParts.rotation_transformations (orientation.py lines 89-91). -/
def NXParts.rotation_transformations (ps : PartsStacks) (nm : String)
    (dep : Option String) : Option (List (String × TNode)) :=
  transAux nm 'r' 0 (orDot dep) ps.rotation

/-- Model of NXParts.transformations (orientation.py lines 93-96): position
nodes first, then rotation nodes whose incoming dependency is the last
position node name, or None (hence the sentinel) when the position stack
emitted nothing. -/
def NXParts.transformations (ps : PartsStacks) (nm : String) (dep : Option String) :
    Option (List (String × TNode)) :=
  match NXParts.position_transformations ps nm dep with
  | none => none
  | some parts =>
    let dep2 : Option String := match parts.getLast? with
      | some lastPair => some lastPair.1
      | none => none
    match NXParts.rotation_transformations ps nm dep2 with
    | none => none
    | some rots => some (parts ++ rots)

/-! ## Reference resolution and the synthesizer entry points
(instr.py NXInstr.make_transformations, mccode.py NXMcCode.transformations)

A previously synthesized component is visible through self.nx as a group
that may carry a depends_on entry; CompEntry keeps that one field.  The
orientation algebra of mccode_antlr (position_parts, rotation_parts,
Parts.from_at_rotated, reduce, the subtraction of the origin) is the
external Pose Model, so an MInstance carries the parts stacks those calls
return for the component. -/

structure CompEntry where
  depends_on : Option String
deriving DecidableEq, Repr

/-- Model of self.nx.get(name): the first entry of the mapping with the
given component name. -/
def nxGet (nx : List (String × CompEntry)) (nm : String) : Option CompEntry :=
  (nx.find? (fun e => e.1 == nm)).map Prod.snd

/-- The absolute reference of instr.py line 118 and mccode.py line 62. -/
def abs_ref (ref : String) : String := "/entry/instrument/" ++ ref

/-- Model of the target resolution of instr.py lines 170-187.  The outer
none models the RuntimeError (transformations defined out of order) when
the referenced component has not been synthesized; the inner Option is the
target handed to NXParts.transformations: an absolute depends_on of the
target is kept, a relative one is joined under the target path, and a
missing or sentinel depends_on yields None. -/
def resolveTarget (nx : List (String × CompEntry)) (relName : String) :
    Option (Option String) :=
  match nxGet nx relName with
  | none => none
  | some entry =>
    match entry.depends_on with
    | none => some none
    | some t =>
      if headIs '/' t then some (some t)
      else if t = "." then some none
      else some (some (abs_ref relName ++ "/" ++ t))

/-- The component data make_transformations reads: the name, the reference
names of at_relative and rotate_relative (None meaning ABSOLUTE), and the
parts stacks delivered by the external orientation algebra: oriPosition and
oriRotation decompose inst.orientation minus the origin, relOriRotation is
the rotation decomposition of the reference orientation minus the origin
(absolute-position branch), relRotReduced the reduced rotation stack of
from_at_rotated of the rotation vector, and atStack and rotStack the
from_at_rotated stacks of the same-target branch. -/
structure MInstance where
  name : String
  at_rel : Option String
  rot_rel : Option String
  oriPosition : List MPart
  oriRotation : List MPart
  relOriRotation : List MPart
  relRotReduced : List MPart
  atStack : List MPart
  rotStack : List MPart

/-- The exceptions the two synthesizer entry points can raise. -/
inductive SynthError : Type where
  | partError
  | relRotAbsNotImplemented
  | differentTargetsNotImplemented
  | outOfOrder
  | mixedNotTested
deriving DecidableEq, Repr

/-- Model of last_ref (instr.py lines 121-125): the name of the last node
of the accumulated list, or None when it is empty. -/
def lastRef (l : List (String × TNode)) : Option String :=
  l.getLast?.map Prod.fst

/-- An escaped exception from the parts layer aborts the entry point. -/
def liftPart : Option (List (String × TNode)) → Except SynthError (List (String × TNode))
  | none => .error .partError
  | some l => .ok l

/-- Model of NXInstr.make_transformations (instr.py lines 114-190).  Both
absolute: one combined NXParts chain with no external dependency.  Absolute
position with relative rotation (lines 144-153): position nodes of the own
orientation, then the rotation nodes of the reference orientation named
after the reference, then the reduced relative rotation nodes, each block
chained onto the last emitted node; the source emits an untested-
combination warning but no error here.  Relative position with absolute
rotation, and two different relative targets, raise RuntimeError.  Shared
relative target: the target is resolved through the references own
depends_on entry and handed to NXParts.transformations. -/
def NXInstr.make_transformations (nx : List (String × CompEntry)) (inst : MInstance) :
    Except SynthError (List (String × TNode)) :=
  match inst.at_rel, inst.rot_rel with
  | none, none =>
    liftPart (NXParts.transformations ⟨inst.oriPosition, inst.oriRotation⟩ inst.name none)
  | none, some relName =>
    match NXParts.position_transformations ⟨inst.oriPosition, inst.oriRotation⟩
        inst.name none with
    | none => .error .partError
    | some posL =>
      match NXParts.rotation_transformations ⟨[], inst.relOriRotation⟩
          relName (lastRef posL) with
      | none => .error .partError
      | some relRotL =>
        match NXParts.rotation_transformations ⟨inst.relRotReduced, inst.relRotReduced⟩
            inst.name (lastRef (posL ++ relRotL)) with
        | none => .error .partError
        | some rotL => .ok (posL ++ relRotL ++ rotL)
  | some _, none => .error .relRotAbsNotImplemented
  | some a, some r =>
    if a ≠ r then .error .differentTargetsNotImplemented
    else
      match resolveTarget nx r with
      | none => .error .outOfOrder
      | some target =>
        liftPart (NXParts.transformations ⟨inst.atStack, inst.rotStack⟩ inst.name target)

/-- Model of NXMcCode.transformations (mccode.py lines 57-113): the both-
absolute case uses the recentred orientation stacks; the shared-target case
hands the raw absolute component reference (no resolution through the
target chain) to NXParts.transformations; every other combination raises
RuntimeError. -/
def NXMcCode.transformations (c : MInstance) : Except SynthError (List (String × TNode)) :=
  match c.at_rel, c.rot_rel with
  | none, none =>
    liftPart (NXParts.transformations ⟨c.oriPosition, c.oriRotation⟩ c.name none)
  | some a, some r =>
    if a = r then
      liftPart (NXParts.transformations ⟨c.atStack, c.rotStack⟩ c.name (some (abs_ref a)))
    else .error .mixedNotTested
  | _, _ => .error .mixedNotTested

/-! ## Chain structure: sequential linking -/

/-- The emitted node names of a chain, in order. -/
def chainNames (l : List (String × TNode)) : List String := l.map Prod.fst

/-- The name of the last node, or the given dependency when there is none. -/
def lastNameD (l : List (String × TNode)) (d : String) : String :=
  (l.getLast?.map Prod.fst).getD d

/-- A chain is sequentially linked from an incoming dependency d: the first
node depends on d and every later node depends on the name of the node just
before it. -/
def seqChain : String → List (String × TNode) → Prop
  | _, [] => True
  | d, q :: rest => q.2.depends_on = d ∧ seqChain q.1 rest

theorem lastNameD_cons (q : String × TNode) (t : List (String × TNode)) (d : String) :
    lastNameD (q :: t) d = lastNameD t q.1 := by
  cases t with
  | nil => rfl
  | cons r s =>
    unfold lastNameD
    rw [List.getLast?_cons_cons]
    cases h : (r :: s).getLast? with
    | none => exact absurd (List.getLast?_eq_none_iff.mp h) (by simp)
    | some x => rfl

theorem lastNameD_append (l1 l2 : List (String × TNode)) (d : String) :
    lastNameD (l1 ++ l2) d = lastNameD l2 (lastNameD l1 d) := by
  induction l1 generalizing d with
  | nil => rfl
  | cons q t ih =>
    rw [List.cons_append, lastNameD_cons, lastNameD_cons, ih]

theorem seqChain_append {d : String} {l1 l2 : List (String × TNode)}
    (h1 : seqChain d l1) (h2 : seqChain (lastNameD l1 d) l2) : seqChain d (l1 ++ l2) := by
  induction l1 generalizing d with
  | nil => exact h2
  | cons q t ih =>
    obtain ⟨hdep, hrest⟩ := h1
    rw [lastNameD_cons] at h2
    exact ⟨hdep, ih hrest h2⟩

theorem translations_seqChain (p : MPart) (dep name : String) :
    seqChain dep (NXPart.translations p dep name) := by
  unfold NXPart.translations
  split
  · by_cases hx : p.xIsZero <;> by_cases hy : p.yIsZero <;> by_cases hz : p.zIsZero <;>
      simp [hx, hy, hz, seqChain]
  · exact ⟨rfl, trivial⟩

theorem translations_lastNameD (p : MPart) (dep name : String) :
    ∀ last, (NXPart.translations p dep name).getLast? = some last →
      lastNameD (NXPart.translations p dep name) dep = last.1 := by
  intro last hlast
  unfold lastNameD
  rw [hlast]
  rfl

theorem part_transformations_seqChain {p : MPart} {name dep : String}
    {l : List (String × TNode)} (h : NXPart.transformations p name dep = some l) :
    seqChain dep l := by
  unfold NXPart.transformations at h
  split at h
  · dsimp only at h
    split at h
    · cases h
    · rename_i last hlast
      split at h
      · cases h
      · rename_i rot hrot
        cases h
        refine seqChain_append (translations_seqChain p dep name) ?_
        rw [translations_lastNameD p dep name last hlast]
        unfold NXPart.rotation at hrot
        split at hrot
        · cases hrot
        · cases hrot
          exact ⟨rfl, trivial⟩
  · split at h
    · cases h
      exact translations_seqChain p dep name
    · split at h
      · split at h
        · cases h
        · rename_i rot hrot
          cases h
          unfold NXPart.rotation at hrot
          split at hrot
          · cases hrot
          · cases hrot
            exact ⟨rfl, trivial⟩
      · cases h
        trivial

theorem transAux_seqChain {nm : String} {typ : Char} :
    ∀ {i : Nat} {dep : String} {stack : List MPart} {l : List (String × TNode)},
    transAux nm typ i dep stack = some l → seqChain dep l := by
  intro i dep stack
  induction stack generalizing i dep with
  | nil => intro l h; cases h; trivial
  | cons p rest ih =>
    intro l h
    simp only [transAux] at h
    split at h
    · cases h
    · rename_i parts hp
      split at h
      · cases h
      · rename_i restL hr
        cases h
        refine seqChain_append (part_transformations_seqChain hp) ?_
        have hd2 : (match parts.getLast? with
            | some lastPair => lastPair.1
            | none => dep) = lastNameD parts dep := by
          unfold lastNameD
          cases parts.getLast? with
          | none => rfl
          | some lp => rfl
        rw [← hd2]
        exact ih hr

theorem seqChain_head {d : String} {l : List (String × TNode)} (h : seqChain d l) :
    ∀ q, l.head? = some q → q.2.depends_on = d := by
  cases l with
  | nil => intro q hq; cases hq
  | cons x t =>
    intro q hq
    cases hq
    exact h.1

/-! ## Claims C1 and C3: dropped dependencies and skipped zero parts -/

/-- A translation part whose three components are Expr objects equal to
Expr.parse of zero: the per-axis loop of NXPart.translations skips all
three axes and emits nothing. -/
def zeroSymTranslation : MPart :=
  ⟨true, false, true, true, true, true, true, false⟩

/-- A plain rotation part whose rotation_axis_angle succeeds. -/
def simpleRotation : MPart :=
  ⟨false, true, true, true, true, false, false, false⟩

/-- A translation part whose components are plain zero floats: the
constant branch emits a single node of zero magnitude. -/
def constZeroTranslation : MPart :=
  ⟨true, false, true, true, true, false, true, false⟩

/-- A constant translation part of nonzero magnitude. -/
def constTranslation : MPart :=
  ⟨true, false, false, false, false, false, false, false⟩

/-- C1: the claim says the first rotation node receives the externally
supplied dependency when the position stack yields no nodes; the code of
NXParts.transformations (orientation.py line 95) instead replaces the
dependency by None, so the rotation chain starts at the sentinel.  On the
failing input (an all-zero symbolic position part, one rotation part, the
external dependency of the xpos target) the emitted rotation node depends
on the sentinel, not on the supplied target. -/
theorem c1_external_dependency_dropped :
    NXParts.transformations ⟨[zeroSymTranslation], [simpleRotation]⟩ "zrot"
      (some "/entry/instrument/xpos")
      = some [("zrot_r0", ⟨".", "rotation"⟩)]
    ∧ ("." : String) ≠ "/entry/instrument/xpos" := by
  exact ⟨rfl, by decide⟩

/-- C3 counterexample: a zero-magnitude translation part whose components
are plain constants (not Expr values) does emit a node: the constant branch
of NXPart.translations (orientation.py lines 38-41) never tests the norm
before emitting, so the claim that zero-magnitude Parts contribute no node
fails for it. -/
theorem c3_counterexample :
    NXParts.position_transformations ⟨[constZeroTranslation], []⟩ "c" none
      = some [("c_t0", ⟨".", "translation"⟩)]
    ∧ constZeroTranslation.normIsZero = true := by
  exact ⟨rfl, rfl⟩

/-- C3 amended: a translation Part with symbolic (Expr or Value) components
that all equal zero contributes no node, and the chain stays connected
across it: the stack tail is translated with the same incoming dependency
(only the running index advances), and the first node emitted afterwards
depends on exactly the dependency the skipped part would have had.
Fully-constant zero translation parts (see the counterexample) and zero
rotations still emit nodes. -/
theorem c3_symbolic_zero_part_skipped (nm : String) (typ : Char) (i : Nat) (dep : String)
    (p : MPart) (rest : List MPart)
    (ht : p.is_translation = true) (hr : p.is_rotation = false)
    (he : p.anyExprComponent = true)
    (hx : p.xIsZero = true) (hy : p.yIsZero = true) (hz : p.zIsZero = true) :
    transAux nm typ i dep (p :: rest) = transAux nm typ (i + 1) dep rest
    ∧ ∀ l q, transAux nm typ (i + 1) dep rest = some l → l.head? = some q →
        q.2.depends_on = dep := by
  have hpt : NXPart.transformations p (typName nm typ i) dep = some [] := by
    unfold NXPart.transformations NXPart.translations
    simp [ht, hr, he, hx, hy, hz]
  constructor
  · simp only [transAux, hpt]
    cases htr : transAux nm typ (i + 1) dep rest <;> simp [htr]
  · intro l q hl hq
    exact seqChain_head (transAux_seqChain hl) q hq

/-- Witness for the amended C3: skipping the all-zero symbolic part leaves
the constant part chained to the original dependency. -/
theorem c3_symbolic_zero_part_skipped_witness :
    transAux "c" 't' 0 "." [zeroSymTranslation, constTranslation]
      = transAux "c" 't' 1 "." [constTranslation]
    ∧ (("c_t1", ⟨".", "translation"⟩) : String × TNode).2.depends_on = "." := by
  have h := c3_symbolic_zero_part_skipped "c" 't' 0 "." zeroSymTranslation
    [constTranslation] rfl rfl rfl rfl rfl rfl
  exact ⟨h.1, h.2 [("c_t1", ⟨".", "translation"⟩)] ("c_t1", ⟨".", "translation"⟩) rfl rfl⟩

/-! ## Synthesized node names: shape and injectivity

Every node the synthesizer emits is named base_t3_x style: a component
name, an underscore, the kind letter, the decimal stack index, and an
optional axis or rotation suffix.  Distinctness of all emitted names
reduces to injectivity of this encoding. -/

def axisSufs : List String := ["", "_x", "_y", "_z", "_r"]

structure NameTag where
  base : String
  typ : Char
  idx : Nat
  suf : String
deriving DecidableEq, Repr

/-- The rendered node name of a tag. -/
def tagStr (t : NameTag) : String :=
  t.base ++ "_" ++ String.mk [t.typ] ++ natStr t.idx ++ t.suf

theorem string_data_inj {s t : String} (h : s.data = t.data) : s = t := by
  rw [← string_eta s, ← string_eta t, h]

theorem string_append_data (a b : String) : (a ++ b).data = a.data ++ b.data := rfl

theorem string_append_empty (s : String) : s ++ "" = s := by
  apply string_data_inj
  rw [string_append_data]
  simp [String.data]

theorem tagStr_data (t : NameTag) :
    (tagStr t).data = t.base.data ++ '_' :: t.typ :: ((natStr t.idx).data ++ t.suf.data) := by
  show (t.base ++ "_" ++ String.mk [t.typ] ++ natStr t.idx ++ t.suf).data = _
  simp only [string_append_data, List.append_assoc]
  rfl

theorem dropWhile_digits_append {D S : List Char} (hD : ∀ c ∈ D, c.isDigit = true)
    (hS : S = [] ∨ ∃ c, S.head? = some c ∧ c.isDigit = false) :
    (D ++ S).dropWhile Char.isDigit = S := by
  induction D with
  | nil =>
    simp only [List.nil_append]
    rcases hS with rfl | ⟨c, hc, hcd⟩
    · rfl
    · exact dropWhile_eq_self_of_head (fun x hx => by
        rw [hc] at hx
        cases hx
        exact hcd)
  | cons c D ih =>
    have hc := hD c (List.mem_cons_self _ _)
    simp only [List.cons_append, List.dropWhile, hc]
    exact ih (fun x hx => hD x (List.mem_cons_of_mem _ hx))

theorem takeWhile_digits_append {D S : List Char} (hD : ∀ c ∈ D, c.isDigit = true)
    (hS : S = [] ∨ ∃ c, S.head? = some c ∧ c.isDigit = false) :
    (D ++ S).takeWhile Char.isDigit = D := by
  induction D with
  | nil =>
    simp only [List.nil_append]
    rcases hS with rfl | ⟨c, hc, hcd⟩
    · rfl
    · cases S with
      | nil => rfl
      | cons x xs =>
        cases hc
        simp [List.takeWhile, hcd]
  | cons c D ih =>
    have hc := hD c (List.mem_cons_self _ _)
    simp only [List.cons_append, List.takeWhile, hc]
    exact congrArg (fun l => c :: l) (ih (fun x hx => hD x (List.mem_cons_of_mem _ hx)))

theorem dropWhile_length_ge (p : Char → Bool) (a b : List Char) :
    (b.dropWhile p).length ≤ ((a ++ b).dropWhile p).length := by
  induction a with
  | nil => exact Nat.le_refl _
  | cons c a ih =>
    simp only [List.cons_append, List.dropWhile]
    split
    · exact ih
    · calc (b.dropWhile p).length ≤ b.length := (List.dropWhile_sublist p).length_le
        _ ≤ (c :: (a ++ b)).length := by simp; omega

theorem digits_suffix_split {D1 D2 S1 S2 : List Char}
    (hD1 : ∀ c ∈ D1, c.isDigit = true) (hD2 : ∀ c ∈ D2, c.isDigit = true)
    (hS1 : S1 = [] ∨ ∃ c, S1.head? = some c ∧ c.isDigit = false)
    (hS2 : S2 = [] ∨ ∃ c, S2.head? = some c ∧ c.isDigit = false)
    (h : D1 ++ S1 = D2 ++ S2) : D1 = D2 ∧ S1 = S2 := by
  constructor
  · have h1 := takeWhile_digits_append hD1 hS1
    have h2 := takeWhile_digits_append hD2 hS2
    rw [← h1, ← h2, h]
  · have h1 := dropWhile_digits_append hD1 hS1
    have h2 := dropWhile_digits_append hD2 hS2
    rw [← h1, ← h2, h]

theorem nameclash_ext {ext : List Char} {t1 t2 : Char} {D1 D2 S1 S2 : List Char}
    (hD1 : D1 ≠ [] ∧ ∀ c ∈ D1, c.isDigit = true)
    (hD2 : D2 ≠ [] ∧ ∀ c ∈ D2, c.isDigit = true)
    (hS1 : (S1 = [] ∨ ∃ c, S1.head? = some c ∧ c.isDigit = false) ∧ S1.length ≤ 2)
    (ht1 : t1.isDigit = false ∧ ¬(t1 = '_'))
    (h : '_' :: t1 :: (D1 ++ S1) = ext ++ '_' :: t2 :: (D2 ++ S2)) : ext = [] := by
  cases ext with
  | nil => rfl
  | cons e ext' =>
    exfalso
    simp only [List.cons_append, List.cons.injEq] at h
    obtain ⟨he, h⟩ := h
    cases ext' with
    | nil =>
      simp only [List.nil_append, List.cons.injEq] at h
      exact ht1.2 h.1
    | cons f ext'' =>
      simp only [List.cons_append, List.cons.injEq] at h
      obtain ⟨hf, h⟩ := h
      have hlhs : ((D1 ++ S1).dropWhile Char.isDigit).length = S1.length := by
        rw [dropWhile_digits_append hD1.2 hS1.1]
      have hge := dropWhile_length_ge Char.isDigit ext'' ('_' :: t2 :: (D2 ++ S2))
      rw [← h] at hge
      have hrhs : (('_' :: t2 :: (D2 ++ S2)).dropWhile Char.isDigit).length
          = 2 + D2.length + S2.length := by
        have : ('_' :: t2 :: (D2 ++ S2)).dropWhile Char.isDigit
            = '_' :: t2 :: (D2 ++ S2) := by
          apply dropWhile_eq_self_of_head
          intro x hx
          cases hx
          decide
        rw [this]
        simp
        omega
      rw [hrhs, hlhs] at hge
      have hD2len : 1 ≤ D2.length := by
        cases hd2 : D2 with
        | nil => exact absurd hd2 hD2.1
        | cons x xs => simp
      omega

theorem nameclash {A B : List Char} {t1 t2 : Char} {D1 D2 S1 S2 : List Char}
    (hD1 : D1 ≠ [] ∧ ∀ c ∈ D1, c.isDigit = true)
    (hD2 : D2 ≠ [] ∧ ∀ c ∈ D2, c.isDigit = true)
    (hS1 : (S1 = [] ∨ ∃ c, S1.head? = some c ∧ c.isDigit = false) ∧ S1.length ≤ 2)
    (hS2 : (S2 = [] ∨ ∃ c, S2.head? = some c ∧ c.isDigit = false) ∧ S2.length ≤ 2)
    (ht1 : t1.isDigit = false ∧ ¬(t1 = '_')) (ht2 : t2.isDigit = false ∧ ¬(t2 = '_'))
    (h : A ++ '_' :: t1 :: (D1 ++ S1) = B ++ '_' :: t2 :: (D2 ++ S2)) :
    A = B ∧ t1 = t2 ∧ D1 = D2 ∧ S1 = S2 := by
  rcases List.append_eq_append_iff.mp h with ⟨ext, hB, hX⟩ | ⟨ext, hA, hY⟩
  · have hext : ext = [] := nameclash_ext hD1 hD2 hS1 ht1 hX
    subst hext
    rw [List.append_nil] at hB
    rw [List.nil_append] at hX
    simp only [List.cons.injEq] at hX
    obtain ⟨ht, hrest⟩ := hX
    obtain ⟨hDeq, hSeq⟩ := digits_suffix_split hD1.2 hD2.2 hS1.1 hS2.1 hrest.2
    exact ⟨hB.symm, hrest.1, hDeq, hSeq⟩
  · have hext : ext = [] := nameclash_ext hD2 hD1 hS2 ht2 hY
    subst hext
    rw [List.append_nil] at hA
    rw [List.nil_append] at hY
    simp only [List.cons.injEq] at hY
    obtain ⟨ht, hrest⟩ := hY
    obtain ⟨hDeq, hSeq⟩ := digits_suffix_split hD2.2 hD1.2 hS2.1 hS1.1 hrest.2
    exact ⟨hA, hrest.1.symm, hDeq.symm, hSeq.symm⟩

theorem axisSufs_head : ∀ s ∈ axisSufs,
    s.data = [] ∨ ∃ c, s.data.head? = some c ∧ c.isDigit = false := by decide

theorem axisSufs_len : ∀ s ∈ axisSufs, s.data.length ≤ 2 := by decide

theorem axisSufs_nodup : axisSufs.Nodup := by decide

theorem typChar_good : ∀ c : Char, c = 't' ∨ c = 'r' → c.isDigit = false ∧ ¬(c = '_') := by
  intro c h
  rcases h with rfl | rfl <;> exact ⟨by decide, by decide⟩

theorem natStr_hyp (n : Nat) : (natStr n).data ≠ [] ∧ ∀ c ∈ (natStr n).data, c.isDigit = true :=
  ⟨natStr_data_ne_nil n, natStr_all_digit n⟩

theorem tagStr_inj {t1 t2 : NameTag}
    (h1 : t1.suf ∈ axisSufs) (h2 : t2.suf ∈ axisSufs)
    (hc1 : t1.typ = 't' ∨ t1.typ = 'r') (hc2 : t2.typ = 't' ∨ t2.typ = 'r')
    (h : tagStr t1 = tagStr t2) : t1 = t2 := by
  have hdata := congrArg String.data h
  rw [tagStr_data, tagStr_data] at hdata
  obtain ⟨hA, hT, hD, hS⟩ := nameclash (natStr_hyp t1.idx) (natStr_hyp t2.idx)
    ⟨axisSufs_head _ h1, axisSufs_len _ h1⟩ ⟨axisSufs_head _ h2, axisSufs_len _ h2⟩
    (typChar_good _ hc1) (typChar_good _ hc2) hdata
  obtain ⟨b1, c1, i1, s1⟩ := t1
  obtain ⟨b2, c2, i2, s2⟩ := t2
  simp only at hA hT hD hS
  have hb : b1 = b2 := string_data_inj hA
  have hi : i1 = i2 := natStr_inj (string_data_inj hD)
  have hs : s1 = s2 := string_data_inj hS
  simp [hb, hT, hi, hs]

theorem tagStr_ne_dot (t : NameTag) : tagStr t ≠ "." := by
  intro h
  have hdata := congrArg String.data h
  rw [tagStr_data] at hdata
  have hlen := congrArg List.length hdata
  simp only [List.length_append, List.length_cons, List.length_nil] at hlen
  have hD : 1 ≤ (natStr t.idx).data.length := by
    cases hd : (natStr t.idx).data with
    | nil => exact absurd hd (natStr_data_ne_nil _)
    | cons x xs => simp
  omega

theorem tagStr_ne_empty (t : NameTag) : tagStr t ≠ "" := by
  intro h
  have hdata := congrArg String.data h
  rw [tagStr_data] at hdata
  have hlen := congrArg List.length hdata
  simp only [List.length_append, List.length_cons, List.length_nil] at hlen
  omega

theorem tagStr_head_not_slash (t : NameTag) (hb : t.base.data.head? ≠ some '/') :
    (tagStr t).data.head? ≠ some '/' := by
  rw [tagStr_data]
  cases hd : t.base.data with
  | nil => simp
  | cons x xs =>
    rw [hd] at hb
    simp only [List.cons_append, List.head?_cons]
    intro hcon
    apply hb
    rw [List.head?_cons]
    exact hcon

theorem tags_nodup_names {tags : List NameTag}
    (hwf : ∀ t ∈ tags, (t.typ = 't' ∨ t.typ = 'r') ∧ t.suf ∈ axisSufs)
    (hp : tags.Pairwise (fun a b => ¬(a = b))) :
    (tags.map tagStr).Nodup := by
  unfold List.Nodup
  rw [List.pairwise_map]
  refine hp.imp_of_mem ?_
  intro a b ha hb hne heq
  exact hne (tagStr_inj (hwf a ha).2 (hwf b hb).2 (hwf a ha).1 (hwf b hb).1 heq)

theorem translations_names (p : MPart) (dep name : String) :
    ∃ sufs : List String, sufs.Sublist ["", "_x", "_y", "_z"] ∧
      chainNames (NXPart.translations p dep name) = sufs.map (fun s => name ++ s) := by
  unfold NXPart.translations
  split
  · by_cases hx : p.xIsZero = true <;> by_cases hy : p.yIsZero = true <;>
      by_cases hz : p.zIsZero = true
    · exact ⟨[], by decide, by simp [hx, hy, hz, chainNames]⟩
    · exact ⟨["_z"], by decide, by simp [hx, hy, hz, chainNames]⟩
    · exact ⟨["_y"], by decide, by simp [hx, hy, hz, chainNames]⟩
    · exact ⟨["_y", "_z"], by decide, by simp [hx, hy, hz, chainNames]⟩
    · exact ⟨["_x"], by decide, by simp [hx, hy, hz, chainNames]⟩
    · exact ⟨["_x", "_z"], by decide, by simp [hx, hy, hz, chainNames]⟩
    · exact ⟨["_x", "_y"], by decide, by simp [hx, hy, hz, chainNames]⟩
    · exact ⟨["_x", "_y", "_z"], by decide, by simp [hx, hy, hz, chainNames]⟩
  · refine ⟨[""], by decide, ?_⟩
    simp [chainNames, string_append_empty]

theorem part_transformations_names {p : MPart} {name dep : String}
    {l : List (String × TNode)} (h : NXPart.transformations p name dep = some l) :
    ∃ sufs : List String, sufs.Sublist axisSufs ∧
      chainNames l = sufs.map (fun s => name ++ s) := by
  have haxis : axisSufs = ["", "_x", "_y", "_z"] ++ ["_r"] := by decide
  unfold NXPart.transformations at h
  split at h
  · dsimp only at h
    split at h
    · cases h
    · rename_i last hlast
      split at h
      · cases h
      · rename_i rot hrot
        cases h
        obtain ⟨sufs, hsub, hnames⟩ := translations_names p dep name
        refine ⟨sufs ++ ["_r"], ?_, ?_⟩
        · rw [haxis]
          exact hsub.append (List.Sublist.refl _)
        · unfold chainNames at hnames ⊢
          simp only [List.map_append, hnames]
          simp
  · split at h
    · cases h
      obtain ⟨sufs, hsub, hnames⟩ := translations_names p dep name
      refine ⟨sufs, ?_, hnames⟩
      rw [haxis]
      exact hsub.trans (List.sublist_append_left _ _)
    · split at h
      · split at h
        · cases h
        · rename_i rot hrot
          cases h
          refine ⟨[""], ?_, ?_⟩
          · decide
          · simp [chainNames, string_append_empty]
      · cases h
        exact ⟨[], by decide, rfl⟩

theorem transAux_names {nm : String} {typ : Char} :
    ∀ {i : Nat} {dep : String} {stack : List MPart} {l : List (String × TNode)},
    transAux nm typ i dep stack = some l →
    ∃ tags : List NameTag,
      chainNames l = tags.map tagStr
      ∧ (∀ t ∈ tags, t.base = nm ∧ t.typ = typ ∧ i ≤ t.idx ∧ t.suf ∈ axisSufs)
      ∧ tags.Pairwise (fun a b => a.idx < b.idx ∨ (a.idx = b.idx ∧ ¬(a.suf = b.suf))) := by
  intro i dep stack
  induction stack generalizing i dep with
  | nil =>
    intro l h; cases h
    exact ⟨[], rfl, by simp, List.Pairwise.nil⟩
  | cons p rest ih =>
    intro l h
    simp only [transAux] at h
    split at h
    · cases h
    · rename_i parts hp
      split at h
      · cases h
      · rename_i restL hr
        cases h
        obtain ⟨sufs, hsub, hnames⟩ := part_transformations_names hp
        obtain ⟨tags2, hn2, hb2, hp2⟩ := ih hr
        refine ⟨sufs.map (fun s => ⟨nm, typ, i, s⟩) ++ tags2, ?_, ?_, ?_⟩
        · unfold chainNames at hnames hn2 ⊢
          rw [List.map_append, hnames, hn2]
          rw [List.map_append, List.map_map]
          congr 1
        · intro t ht
          rcases List.mem_append.mp ht with ht | ht
          · rcases List.mem_map.mp ht with ⟨s, hs, rfl⟩
            exact ⟨rfl, rfl, Nat.le_refl i, hsub.subset hs⟩
          · obtain ⟨hb, hc, hi, hs⟩ := hb2 t ht
            exact ⟨hb, hc, by omega, hs⟩
        · rw [List.pairwise_append]
          refine ⟨?_, hp2, ?_⟩
          · rw [List.pairwise_map]
            have hnd : sufs.Nodup := hsub.nodup axisSufs_nodup
            exact hnd.imp (fun hne => Or.inr ⟨rfl, hne⟩)
          · intro a ha b hb
            rcases List.mem_map.mp ha with ⟨s, hs, rfl⟩
            obtain ⟨_, _, hi, _⟩ := hb2 b hb
            refine Or.inl ?_
            show i < b.idx
            omega

/-! ## The single-chain property -/

/-- The chain shape claimed for the emitted nodes of one component: names
are distinct (so a depends_on string names at most one predecessor), every
node after the first depends on the node immediately before it (hence no
cycles), the first node's dependency names no node of the chain, and
exactly one node (none for an empty chain) has a dependency that names no
chain node. -/
def chainWellFormed (l : List (String × TNode)) : Prop :=
  (chainNames l).Nodup
  ∧ (∀ k (h : k + 1 < l.length),
      (l.get ⟨k + 1, h⟩).2.depends_on = (l.get ⟨k, Nat.lt_of_succ_lt h⟩).1)
  ∧ (∀ q ∈ l.head?, q.2.depends_on ∉ chainNames l)
  ∧ (l.filter (fun q => !((chainNames l).contains q.2.depends_on))).length = min l.length 1

theorem seqChain_get {d : String} : ∀ {l : List (String × TNode)}, seqChain d l →
    ∀ k (h : k + 1 < l.length),
      (l.get ⟨k + 1, h⟩).2.depends_on = (l.get ⟨k, Nat.lt_of_succ_lt h⟩).1 := by
  intro l
  induction l generalizing d with
  | nil => intro _ k h; simp at h
  | cons q t ih =>
    intro hseq k h
    cases k with
    | zero =>
      cases t with
      | nil => simp at h
      | cons r s =>
        show r.2.depends_on = q.1
        exact hseq.2.1
    | succ k =>
      show (t.get ⟨k + 1, _⟩).2.depends_on = (t.get ⟨k, _⟩).1
      exact ih hseq.2 k (by simpa using h)

theorem seqChain_tail_mem {d : String} : ∀ {q : String × TNode} {t : List (String × TNode)},
    seqChain d (q :: t) → ∀ r ∈ t, r.2.depends_on ∈ chainNames (q :: t) := by
  intro q t
  induction t generalizing d q with
  | nil => intro _ r hr; cases hr
  | cons r s ih =>
    intro hseq x hx
    rcases List.mem_cons.mp hx with rfl | hx
    · have : x.2.depends_on = q.1 := hseq.2.1
      rw [this]
      simp [chainNames]
    · have := ih hseq.2 x hx
      simp only [chainNames, List.map_cons, List.mem_cons] at this ⊢
      tauto

theorem seq_filter_count {d : String} {l : List (String × TNode)}
    (hseq : seqChain d l) (hd : d ∉ chainNames l) :
    (l.filter (fun q => !((chainNames l).contains q.2.depends_on))).length
      = min l.length 1 := by
  cases l with
  | nil => simp
  | cons q t =>
    have hq : q.2.depends_on = d := hseq.1
    have hqpred : (!((chainNames (q :: t)).contains q.2.depends_on)) = true := by
      rw [hq]
      simp only [Bool.not_eq_true']
      simpa using hd
    have hstep : (q :: t).filter (fun r => !((chainNames (q :: t)).contains r.2.depends_on))
        = q :: t.filter (fun r => !((chainNames (q :: t)).contains r.2.depends_on)) :=
      List.filter_cons_of_pos hqpred
    have htail : t.filter (fun r => !((chainNames (q :: t)).contains r.2.depends_on)) = [] := by
      rw [List.filter_eq_nil_iff]
      intro r hr
      have hmem : r.2.depends_on ∈ chainNames (q :: t) := seqChain_tail_mem hseq r hr
      simp only [Bool.not_eq_true, Bool.not_eq_false]
      simpa using hmem
    rw [hstep, htail]
    simp

theorem chainWellFormed_of_seq {d : String} {l : List (String × TNode)}
    (hseq : seqChain d l) (hnodup : (chainNames l).Nodup) (hd : d ∉ chainNames l) :
    chainWellFormed l := by
  refine ⟨hnodup, seqChain_get hseq, ?_, seq_filter_count hseq hd⟩
  intro q hq
  cases l with
  | nil => cases hq
  | cons x t =>
    cases hq
    rw [hseq.1]
    exact hd

theorem tag_pairwise_ne : ∀ {a b : NameTag},
    (a.idx < b.idx ∨ (a.idx = b.idx ∧ ¬(a.suf = b.suf))) → ¬(a = b) := by
  intro a b hr heq
  subst heq
  rcases hr with h | ⟨_, h⟩
  · exact absurd h (lt_irrefl _)
  · exact h rfl

theorem nxparts_master {ps : PartsStacks} {nm : String} {dep : Option String}
    {l : List (String × TNode)} (h : NXParts.transformations ps nm dep = some l) :
    ∃ (posL rotL : List (String × TNode)) (tagsP tagsR : List NameTag),
      l = posL ++ rotL
      ∧ NXParts.position_transformations ps nm dep = some posL
      ∧ chainNames posL = tagsP.map tagStr
      ∧ chainNames rotL = tagsR.map tagStr
      ∧ (∀ t ∈ tagsP, t.base = nm ∧ t.typ = 't' ∧ t.suf ∈ axisSufs)
      ∧ (∀ t ∈ tagsR, t.base = nm ∧ t.typ = 'r' ∧ t.suf ∈ axisSufs)
      ∧ (chainNames l).Nodup
      ∧ seqChain (if posL.isEmpty then "." else orDot dep) l := by
  unfold NXParts.transformations at h
  cases hpos : NXParts.position_transformations ps nm dep with
  | none => rw [hpos] at h; cases h
  | some posL =>
    rw [hpos] at h
    dsimp only at h
    obtain ⟨tagsP, hnP, hbP, hpP⟩ :=
      transAux_names (show transAux nm 't' 0 (orDot dep) ps.position = some posL from hpos)
    have hseqP : seqChain (orDot dep) posL :=
      transAux_seqChain (show transAux nm 't' 0 (orDot dep) ps.position = some posL from hpos)
    cases hlast : posL.getLast? with
    | none =>
      have hnil : posL = [] := List.getLast?_eq_none_iff.mp hlast
      subst hnil
      rw [hlast] at h
      dsimp only at h
      cases hrot : NXParts.rotation_transformations ps nm none with
      | none => rw [hrot] at h; cases h
      | some rotL =>
        rw [hrot] at h
        cases h
        obtain ⟨tagsR, hnR, hbR, hpR⟩ := transAux_names
          (show transAux nm 'r' 0 (orDot none) ps.rotation = some rotL from hrot)
        refine ⟨[], rotL, tagsP, tagsR, rfl, rfl, hnP, hnR,
          (fun t ht => ⟨(hbP t ht).1, (hbP t ht).2.1, (hbP t ht).2.2.2⟩),
          (fun t ht => ⟨(hbR t ht).1, (hbR t ht).2.1, (hbR t ht).2.2.2⟩), ?_, ?_⟩
        · show (chainNames ([] ++ rotL)).Nodup
          rw [List.nil_append, hnR]
          refine tags_nodup_names ?_ (hpR.imp tag_pairwise_ne)
          intro t ht
          exact ⟨Or.inr (hbR t ht).2.1, (hbR t ht).2.2.2⟩
        · show seqChain _ ([] ++ rotL)
          rw [List.nil_append]
          simp only [List.isEmpty_nil, if_true]
          exact transAux_seqChain
            (show transAux nm 'r' 0 (orDot none) ps.rotation = some rotL from hrot)
    | some lp =>
      have hne : posL ≠ [] := by
        intro hcon
        rw [hcon] at hlast
        cases hlast
      rw [hlast] at h
      dsimp only at h
      cases hrot : NXParts.rotation_transformations ps nm (some lp.1) with
      | none => rw [hrot] at h; cases h
      | some rotL =>
        rw [hrot] at h
        cases h
        obtain ⟨tagsR, hnR, hbR, hpR⟩ := transAux_names
          (show transAux nm 'r' 0 (orDot (some lp.1)) ps.rotation = some rotL from hrot)
        have hseqR : seqChain (orDot (some lp.1)) rotL :=
          transAux_seqChain
            (show transAux nm 'r' 0 (orDot (some lp.1)) ps.rotation = some rotL from hrot)
        have hlpmem : lp.1 ∈ chainNames posL := by
          have : lp ∈ posL := List.mem_of_mem_getLast? (by rw [hlast]; rfl)
          exact List.mem_map_of_mem _ this
        have hlpne : ¬(lp.1 = "") := by
          rw [hnP] at hlpmem
          rcases List.mem_map.mp hlpmem with ⟨t, _, heq⟩
          rw [← heq]
          exact tagStr_ne_empty t
        have hor : orDot (some lp.1) = lp.1 := by
          unfold orDot
          simp [hlpne]
        refine ⟨posL, rotL, tagsP, tagsR, rfl, rfl, hnP, hnR,
          (fun t ht => ⟨(hbP t ht).1, (hbP t ht).2.1, (hbP t ht).2.2.2⟩),
          (fun t ht => ⟨(hbR t ht).1, (hbR t ht).2.1, (hbR t ht).2.2.2⟩), ?_, ?_⟩
        · show (chainNames (posL ++ rotL)).Nodup
          have hjoin : chainNames (posL ++ rotL) = (tagsP ++ tagsR).map tagStr := by
            unfold chainNames at hnP hnR ⊢
            rw [List.map_append, hnP, hnR, List.map_append]
          rw [hjoin]
          refine tags_nodup_names ?_ ?_
          · intro t ht
            rcases List.mem_append.mp ht with ht | ht
            · exact ⟨Or.inl (hbP t ht).2.1, (hbP t ht).2.2.2⟩
            · exact ⟨Or.inr (hbR t ht).2.1, (hbR t ht).2.2.2⟩
          · rw [List.pairwise_append]
            refine ⟨hpP.imp tag_pairwise_ne, hpR.imp tag_pairwise_ne, ?_⟩
            intro a ha b hb heq
            have h1 : a.typ = 't' := (hbP a ha).2.1
            have h2 : b.typ = 'r' := (hbR b hb).2.1
            rw [heq, h2] at h1
            cases h1
        · have hempty : posL.isEmpty = false := by
            cases posL with
            | nil => exact absurd rfl hne
            | cons x xs => rfl
          rw [hempty]
          simp only [Bool.false_eq_true, if_false]
          refine seqChain_append hseqP ?_
          have hlname : lastNameD posL (orDot dep) = lp.1 := by
            unfold lastNameD
            rw [hlast]
            rfl
          rw [hlname, ← hor]
          exact hseqR

theorem tag_names_ne_empty {l : List (String × TNode)} {tags : List NameTag}
    (hn : chainNames l = tags.map tagStr) : ∀ s ∈ chainNames l, ¬(s = "") := by
  rw [hn]
  intro s hs
  rcases List.mem_map.mp hs with ⟨t, _, heq⟩
  rw [← heq]
  exact tagStr_ne_empty t

theorem orDot_lastRef {l : List (String × TNode)}
    (hne : ∀ s ∈ chainNames l, ¬(s = "")) : orDot (lastRef l) = lastNameD l "." := by
  unfold orDot lastRef lastNameD
  cases hl : l.getLast? with
  | none => rfl
  | some lp =>
    have hmem : lp.1 ∈ chainNames l := by
      have : lp ∈ l := List.mem_of_mem_getLast? (by rw [hl]; rfl)
      exact List.mem_map_of_mem _ this
    simp [hne _ hmem]

theorem dot_not_in_tag_names {l : List (String × TNode)} {tags : List NameTag}
    (hn : chainNames l = tags.map tagStr) : "." ∉ chainNames l := by
  rw [hn]
  intro h
  rcases List.mem_map.mp h with ⟨t, _, heq⟩
  exact tagStr_ne_dot t heq

theorem slash_not_in_tag_names {l : List (String × TNode)} {tags : List NameTag}
    (hn : chainNames l = tags.map tagStr)
    (hbase : ∀ t ∈ tags, t.base.data.head? ≠ some '/') {d : String}
    (hd : d.data.head? = some '/') : d ∉ chainNames l := by
  rw [hn]
  intro h
  rcases List.mem_map.mp h with ⟨t, ht, heq⟩
  apply tagStr_head_not_slash t (hbase t ht)
  rw [heq]
  exact hd

theorem resolveTarget_slash {nx : List (String × CompEntry)} {r : String} {t : String}
    (h : resolveTarget nx r = some (some t)) : t.data.head? = some '/' := by
  unfold resolveTarget at h
  cases hget : nxGet nx r with
  | none => rw [hget] at h; cases h
  | some entry =>
    rw [hget] at h
    dsimp only at h
    cases hdep : entry.depends_on with
    | none => rw [hdep] at h; cases h
    | some s =>
      rw [hdep] at h
      dsimp only at h
      split at h
      · rename_i hslash
        cases h
        unfold headIs at hslash
        simpa using hslash
      · split at h
        · cases h
        · cases h
          rfl

theorem chainNames_append (a b : List (String × TNode)) :
    chainNames (a ++ b) = chainNames a ++ chainNames b :=
  List.map_append _ _ _

/-- C9: for every component that the synthesizer completes, the emitted
transformation nodes form a singly-linked acyclic chain: node names are
distinct (a depends_on names at most one predecessor), every node after the
first depends on the immediately preceding node, and exactly one node
carries a dependency that names no node of the chain (the sentinel or a
reference into another component).  The hypotheses state the component-name
data contract: instrument component names do not begin with a slash, and a
rotation reference names a different, earlier component. -/
theorem c9_single_chain (nx : List (String × CompEntry)) (inst : MInstance)
    (hname : inst.name.data.head? ≠ some '/')
    (hrel : ∀ r, inst.rot_rel = some r → ¬(r = inst.name))
    (l : List (String × TNode))
    (h : NXInstr.make_transformations nx inst = .ok l) :
    chainWellFormed l := by
  unfold NXInstr.make_transformations at h
  cases hat : inst.at_rel with
  | none =>
    cases hro : inst.rot_rel with
    | none =>
      rw [hat, hro] at h
      dsimp only at h
      unfold liftPart at h
      cases hT : NXParts.transformations ⟨inst.oriPosition, inst.oriRotation⟩ inst.name none with
      | none => rw [hT] at h; cases h
      | some l2 =>
        rw [hT] at h
        cases h
        obtain ⟨posL, rotL, tagsP, tagsR, hl, hpos, hnP, hnR, hbP, hbR, hnodup, hseq⟩ :=
          nxparts_master hT
        subst hl
        have hd : (if posL.isEmpty then "." else orDot none) = "." := by
          cases posL.isEmpty <;> rfl
        rw [hd] at hseq
        refine chainWellFormed_of_seq hseq hnodup ?_
        rw [chainNames_append]
        intro hmem
        rcases List.mem_append.mp hmem with hm | hm
        · exact dot_not_in_tag_names hnP hm
        · exact dot_not_in_tag_names hnR hm
    | some relName =>
      rw [hat, hro] at h
      dsimp only at h
      cases hposT : NXParts.position_transformations
          ⟨inst.oriPosition, inst.oriRotation⟩ inst.name none with
      | none => rw [hposT] at h; cases h
      | some posL =>
        rw [hposT] at h
        dsimp only at h
        cases hrelT : NXParts.rotation_transformations
            ⟨[], inst.relOriRotation⟩ relName (lastRef posL) with
        | none => rw [hrelT] at h; cases h
        | some relRotL =>
          rw [hrelT] at h
          dsimp only at h
          cases hrotT : NXParts.rotation_transformations
              ⟨inst.relRotReduced, inst.relRotReduced⟩ inst.name
              (lastRef (posL ++ relRotL)) with
          | none => rw [hrotT] at h; cases h
          | some rotL =>
            rw [hrotT] at h
            cases h
            obtain ⟨tagsP, hnP, hbP, hpP⟩ := transAux_names
              (show transAux inst.name 't' 0 (orDot none) inst.oriPosition = some posL
                from hposT)
            obtain ⟨tagsRel, hnRel, hbRel, hpRel⟩ := transAux_names
              (show transAux relName 'r' 0 (orDot (lastRef posL)) inst.relOriRotation
                = some relRotL from hrelT)
            obtain ⟨tagsRot, hnRot, hbRot, hpRot⟩ := transAux_names
              (show transAux inst.name 'r' 0 (orDot (lastRef (posL ++ relRotL)))
                inst.relRotReduced = some rotL from hrotT)
            have hseqP : seqChain "." posL :=
              transAux_seqChain
                (show transAux inst.name 't' 0 (orDot none) inst.oriPosition = some posL
                  from hposT)
            have hseqRel : seqChain (lastNameD posL ".") relRotL := by
              have := transAux_seqChain
                (show transAux relName 'r' 0 (orDot (lastRef posL)) inst.relOriRotation
                  = some relRotL from hrelT)
              rwa [orDot_lastRef (tag_names_ne_empty hnP)] at this
            have hseqRot : seqChain (lastNameD (posL ++ relRotL) ".") rotL := by
              have := transAux_seqChain
                (show transAux inst.name 'r' 0 (orDot (lastRef (posL ++ relRotL)))
                  inst.relRotReduced = some rotL from hrotT)
              rwa [orDot_lastRef (fun s hs => by
                rw [chainNames_append] at hs
                rcases List.mem_append.mp hs with hm | hm
                · exact tag_names_ne_empty hnP s hm
                · exact tag_names_ne_empty hnRel s hm)] at this
            have hseq : seqChain "." (posL ++ relRotL ++ rotL) := by
              exact seqChain_append (seqChain_append hseqP hseqRel) hseqRot
            have hnames : chainNames (posL ++ relRotL ++ rotL)
                = ((tagsP ++ tagsRel) ++ tagsRot).map tagStr := by
              rw [chainNames_append, chainNames_append, hnP, hnRel, hnRot,
                List.map_append, List.map_append]
            have hwfall : ∀ t ∈ (tagsP ++ tagsRel) ++ tagsRot,
                (t.typ = 't' ∨ t.typ = 'r') ∧ t.suf ∈ axisSufs := by
              intro t ht
              rcases List.mem_append.mp ht with ht | ht
              · rcases List.mem_append.mp ht with ht | ht
                · exact ⟨Or.inl (hbP t ht).2.1, (hbP t ht).2.2.2⟩
                · exact ⟨Or.inr (hbRel t ht).2.1, (hbRel t ht).2.2.2⟩
              · exact ⟨Or.inr (hbRot t ht).2.1, (hbRot t ht).2.2.2⟩
            have hpall : ((tagsP ++ tagsRel) ++ tagsRot).Pairwise (fun a b => ¬(a = b)) := by
              rw [List.pairwise_append]
              refine ⟨?_, hpRot.imp tag_pairwise_ne, ?_⟩
              · rw [List.pairwise_append]
                refine ⟨hpP.imp tag_pairwise_ne, hpRel.imp tag_pairwise_ne, ?_⟩
                intro a ha b hb heq
                have h1 : a.typ = 't' := (hbP a ha).2.1
                have h2 : b.typ = 'r' := (hbRel b hb).2.1
                rw [heq, h2] at h1
                cases h1
              · intro a ha b hb heq
                rcases List.mem_append.mp ha with ha | ha
                · have h1 : a.typ = 't' := (hbP a ha).2.1
                  have h2 : b.typ = 'r' := (hbRot b hb).2.1
                  rw [heq, h2] at h1
                  cases h1
                · have h1 : a.base = relName := (hbRel a ha).1
                  have h2 : b.base = inst.name := (hbRot b hb).1
                  rw [heq, h2] at h1
                  exact hrel relName hro h1.symm
            have hnodup : (chainNames (posL ++ relRotL ++ rotL)).Nodup := by
              rw [hnames]
              exact tags_nodup_names hwfall hpall
            refine chainWellFormed_of_seq hseq hnodup ?_
            rw [hnames]
            intro hmem
            rcases List.mem_map.mp hmem with ⟨t, _, heq⟩
            exact tagStr_ne_dot t heq
  | some a =>
    cases hro : inst.rot_rel with
    | none => rw [hat, hro] at h; cases h
    | some r =>
      rw [hat, hro] at h
      dsimp only at h
      split at h
      · cases h
      · rename_i hne
        cases hres : resolveTarget nx r with
        | none => rw [hres] at h; cases h
        | some target =>
          rw [hres] at h
          dsimp only at h
          unfold liftPart at h
          cases hT : NXParts.transformations ⟨inst.atStack, inst.rotStack⟩
              inst.name target with
          | none => rw [hT] at h; cases h
          | some l2 =>
            rw [hT] at h
            cases h
            obtain ⟨posL, rotL, tagsP, tagsR, hl, hpos, hnP, hnR, hbP, hbR, hnodup, hseq⟩ :=
              nxparts_master hT
            subst hl
            refine chainWellFormed_of_seq hseq hnodup ?_
            have hnone : ∀ d : String, d = "." ∨ d.data.head? = some '/' →
                d ∉ chainNames (posL ++ rotL) := by
              intro d hd hmem
              rw [chainNames_append] at hmem
              rcases hd with rfl | hd
              · rcases List.mem_append.mp hmem with hm | hm
                · exact dot_not_in_tag_names hnP hm
                · exact dot_not_in_tag_names hnR hm
              · rcases List.mem_append.mp hmem with hm | hm
                · exact slash_not_in_tag_names hnP
                    (fun t ht => by rw [(hbP t ht).1]; exact hname) hd hm
                · exact slash_not_in_tag_names hnR
                    (fun t ht => by rw [(hbR t ht).1]; exact hname) hd hm
            apply hnone
            cases hpe : posL.isEmpty
            · cases target with
              | none => exact Or.inl rfl
              | some t =>
                have hts := resolveTarget_slash hres
                have htne : ¬(t = "") := by
                  intro hcon
                  rw [hcon] at hts
                  cases hts
                right
                show (if t = "" then ("." : String) else t).data.head? = some '/'
                rw [if_neg htne]
                exact hts
            · exact Or.inl rfl

theorem c9_single_chain_witness :
    chainWellFormed [("c_t0", (⟨".", "translation"⟩ : TNode))] :=
  c9_single_chain [] ⟨"c", none, none, [constTranslation], [], [], [], [], []⟩
    (by decide) (fun r h => by cases h) _ rfl

/-! ## C4: absolute position with relative rotation -/

def c4inst : MInstance := ⟨"c", none, some "ref", [], [], [], [simpleRotation], [], []⟩

/-- C4 counterexample: a component with an absolute position (no at-relative
reference) and a rotation relative to another component does NOT abort in
NXInstr.make_transformations: the instr.py entry point (lines 164-188)
synthesizes a chain for it (here one rotation node) and returns it. -/
theorem c4_counterexample :
    NXInstr.make_transformations [] c4inst
      = .ok [("c_r0", (⟨".", "rotation"⟩ : TNode))] := rfl

/-- C4 (amended): only the NXMcCode.transformations entry point (mccode.py
lines 83-93) treats the absolute-position/relative-rotation combination as
unsupported and aborts with the not-tested error; NXInstr.make_transformations
instead emits a chain for it (see the counterexample). -/
theorem c4_mccode_aborts (c : MInstance) (r : String)
    (h1 : c.at_rel = none) (h2 : c.rot_rel = some r) :
    NXMcCode.transformations c = .error .mixedNotTested := by
  unfold NXMcCode.transformations
  rw [h1, h2]

theorem c4_mccode_aborts_witness :
    NXMcCode.transformations c4inst = .error .mixedNotTested :=
  c4_mccode_aborts c4inst "ref" rfl rfl

/-! ## C2: shared relative target -/

def c2nx : List (String × CompEntry) := [("tgt", ⟨none⟩)]

def c2inst : MInstance :=
  ⟨"c", some "tgt", some "tgt", [], [], [], [], [constTranslation], [simpleRotation]⟩

def c2chain : List (String × TNode) :=
  [("c_t0", ⟨".", "translation"⟩), ("c_r0", ⟨"c_t0", "rotation"⟩)]

/-- C2 counterexample: when the shared target component carries no
depends_on entry, the head of the emitted chain depends on the sentinel
'.', not on the target component itself: the direct reference would be
abs_ref "tgt" = /entry/instrument/tgt, and '.' differs from it (and from
every other reference to the target). -/
theorem c2_counterexample :
    NXInstr.make_transformations c2nx c2inst = .ok c2chain
    ∧ ∀ q, c2chain.head? = some q →
        ¬(q.2.depends_on = abs_ref "tgt") ∧ ¬(q.2.depends_on = "tgt") := by
  refine ⟨rfl, ?_⟩
  intro q hq
  cases hq
  exact ⟨by decide, by decide⟩

/-- C2 (amended): for a component whose position and rotation share one
relative target, a completed synthesis resolved the target through the nx
mapping (resolveTarget: an absolute depends_on of the target is kept, a
relative one is joined under the target path, a missing or sentinel one
becomes None); the head of the emitted chain depends on that resolved
reference when the position stack emitted nodes — and on the sentinel '.'
otherwise, and also whenever the target had no dependency (it never refers
directly to the target component itself) — and exactly one node of the
chain has a dependency naming no chain node. -/
theorem c2_shared_target_head (nx : List (String × CompEntry)) (inst : MInstance)
    (r : String) (l : List (String × TNode))
    (hat : inst.at_rel = some r) (hro : inst.rot_rel = some r)
    (hname : inst.name.data.head? ≠ some '/')
    (h : NXInstr.make_transformations nx inst = .ok l) :
    ∃ (target : Option String) (posL : List (String × TNode)),
      resolveTarget nx r = some target
      ∧ NXParts.position_transformations ⟨inst.atStack, inst.rotStack⟩
          inst.name target = some posL
      ∧ (∀ q, l.head? = some q →
          q.2.depends_on = if posL.isEmpty then "." else orDot target)
      ∧ (l.filter (fun q => !((chainNames l).contains q.2.depends_on))).length
          = min l.length 1 := by
  unfold NXInstr.make_transformations at h
  rw [hat, hro] at h
  dsimp only at h
  split at h
  · cases h
  · cases hres : resolveTarget nx r with
    | none => rw [hres] at h; cases h
    | some target =>
      rw [hres] at h
      dsimp only at h
      unfold liftPart at h
      cases hT : NXParts.transformations ⟨inst.atStack, inst.rotStack⟩
          inst.name target with
      | none => rw [hT] at h; cases h
      | some l2 =>
        rw [hT] at h
        cases h
        obtain ⟨posL, rotL, tagsP, tagsR, hl, hpos, hnP, hnR, hbP, hbR, hnodup, hseq⟩ :=
          nxparts_master hT
        subst hl
        refine ⟨target, posL, rfl, hpos, seqChain_head hseq, ?_⟩
        refine seq_filter_count hseq ?_
        have hnone : ∀ d : String, d = "." ∨ d.data.head? = some '/' →
            d ∉ chainNames (posL ++ rotL) := by
          intro d hd hmem
          rw [chainNames_append] at hmem
          rcases hd with rfl | hd
          · rcases List.mem_append.mp hmem with hm | hm
            · exact dot_not_in_tag_names hnP hm
            · exact dot_not_in_tag_names hnR hm
          · rcases List.mem_append.mp hmem with hm | hm
            · exact slash_not_in_tag_names hnP
                (fun t ht => by rw [(hbP t ht).1]; exact hname) hd hm
            · exact slash_not_in_tag_names hnR
                (fun t ht => by rw [(hbR t ht).1]; exact hname) hd hm
        apply hnone
        cases hpe : posL.isEmpty
        · cases target with
          | none => exact Or.inl rfl
          | some t =>
            have hts := resolveTarget_slash hres
            have htne : ¬(t = "") := by
              intro hcon
              rw [hcon] at hts
              cases hts
            right
            show (if t = "" then ("." : String) else t).data.head? = some '/'
            rw [if_neg htne]
            exact hts
        · exact Or.inl rfl

theorem c2_shared_target_head_witness :
    ∃ (target : Option String) (posL : List (String × TNode)),
      resolveTarget c2nx "tgt" = some target
      ∧ NXParts.position_transformations ⟨c2inst.atStack, c2inst.rotStack⟩
          c2inst.name target = some posL
      ∧ (∀ q, c2chain.head? = some q →
          q.2.depends_on = if posL.isEmpty then "." else orDot target)
      ∧ (c2chain.filter
          (fun q => !((chainNames c2chain).contains q.2.depends_on))).length
          = min c2chain.length 1 :=
  c2_shared_target_head c2nx c2inst "tgt" c2chain rfl rfl (by decide) rfl
